import Mathlib

/-!
# Lab2SD: dense complex matrix multiplication

A shallow embedding of `src/main.cpp`:

* `matrixMultiply`, the naive triple loop (lines 15-27);
* `matrixMultiplyOptimized`, the cache-blocked AVX kernel (lines 29-87).

Arithmetic is exact: the scalar type is an arbitrary commutative ring `R`
standing in for `double`, and `Cplx R` is the pair (real, imaginary) laid out
as two consecutive scalars, like `std::complex<double>`.  Concrete evaluations
are done over `Int`.

Buffers (`std::vector<complex<double>>`) are `Array (Cplx R)`.  The C++ `int`
loop variables and index expressions are natural numbers: no loop runs for
`n <= 0`, and the index expressions, at most `(n + 3) * n`, are assumed to fit
in an `int`.  The `omp parallel for` pragmas are modelled by the sequential
execution of the loops in source order; the scratch block `CB` is declared in
the loop body, so every tile has its own.

The 256-bit loads from `A` reach past the end of the buffer.  The unchecked
model `matrixMultiplyOptimized` takes the content of that memory as a
parameter `oob`; the checked model `matrixMultiplyOptimizedChecked` fails at
the first access outside a buffer.  In the same way the 256-bit accesses to
the scratch block `CB` reach the cell behind it: the unchecked model takes its
content as a parameter `stk`, and `matrixMultiplyOptimizedInBlock` fails at the
first access outside the block.
-/

namespace Lab2SD

/-! ## Complex numbers -/

/-- A complex number over the scalar type `R`: real part, then imaginary part. -/
@[ext]
structure Cplx (R : Type) where
  re : R
  im : R
deriving DecidableEq, Repr

namespace Cplx

variable {R : Type} [CommRing R]

instance : Zero (Cplx R) := ⟨⟨0, 0⟩⟩

instance : Add (Cplx R) := ⟨fun x y => ⟨x.re + y.re, x.im + y.im⟩⟩

/-- Component-wise addition makes `Cplx R` a commutative monoid, so that finite
sums of complex numbers can be written with `Finset.sum`. -/
instance : AddCommMonoid (Cplx R) where
  add_assoc x y z := Cplx.ext (add_assoc x.re y.re z.re) (add_assoc x.im y.im z.im)
  zero_add x := Cplx.ext (zero_add x.re) (zero_add x.im)
  add_zero x := Cplx.ext (add_zero x.re) (add_zero x.im)
  add_comm x y := Cplx.ext (add_comm x.re y.re) (add_comm x.im y.im)
  nsmul := nsmulRec

/-- The standard complex product `(a+bi)(c+di) = (ac-bd) + (ad+bc)i`, the
`operator*` of `std::complex` used by the naive loop. -/
instance : Mul (Cplx R) :=
  ⟨fun x y => ⟨x.re * y.re - x.im * y.im, x.re * y.im + x.im * y.re⟩⟩

end Cplx

/-! ## Counted loops -/

/-- Worker of `forLoop`: at most `fuel` iterations of
`for (i = ...; i < hi; i += step) s = body i s`. -/
def forLoopAux {σ : Type} (step hi : Nat) (body : Nat → σ → σ) : Nat → Nat → σ → σ
  | 0, _, s => s
  | fuel + 1, i, s =>
    if i < hi then forLoopAux step hi body fuel (i + step) (body i s) else s

/-- The C loop `for (int i = lo; i < hi; i += step) s = body(i, s);`.  The fuel
`hi - lo` is enough for every `step >= 1` (see `forLoopAux_fuel`). -/
def forLoop {σ : Type} (lo hi step : Nat) (body : Nat → σ → σ) (s : σ) : σ :=
  forLoopAux step hi body (hi - lo) lo s

/-- The values taken by the loop variable of
`for (i = lo; i < hi; i += step)`, in order. -/
def loopIdx (lo hi step : Nat) : List Nat :=
  List.range' lo ((hi - lo + step - 1) / step) step

/-- Worker of `forLoopM`. -/
def forLoopMAux {σ : Type} (step hi : Nat) (body : Nat → σ → Option σ) :
    Nat → Nat → σ → Option σ
  | 0, _, s => some s
  | fuel + 1, i, s =>
    if i < hi then (body i s).bind (fun t => forLoopMAux step hi body fuel (i + step) t)
    else some s

/-- The same C loop with a body that can fail: the loop fails as soon as one
iteration does. -/
def forLoopM {σ : Type} (lo hi step : Nat) (body : Nat → σ → Option σ) (s : σ) : Option σ :=
  forLoopMAux step hi body (hi - lo) lo s

/-! ## The naive multiplication (`matrixMultiply`, lines 15-27) -/

section Naive

variable {R : Type} [CommRing R]

/-- The naive triple loop: for every `i`, `j` the sum over `k` of
`A[i*n+k] * B[k*n+j]`, accumulated from `0` in increasing `k`, is stored in
`C[i*n+j]`. -/
def matrixMultiply (A B C : Array (Cplx R)) (n : Nat) : Array (Cplx R) :=
  forLoop 0 n 1 (fun i C =>
    forLoop 0 n 1 (fun j C =>
      let sum : Cplx R :=
        forLoop 0 n 1 (fun k sum => sum + A.getD (i * n + k) 0 * B.getD (k * n + j) 0) 0
      C.setD (i * n + j) sum) C) C

end Naive

/-! ## The blocked AVX kernel (`matrixMultiplyOptimized`, lines 29-87) -/

section Kernel

variable {R : Type} [CommRing R]

/-- Tile side, `constexpr int BLOCK_SIZE = 64`. -/
def BLOCK_SIZE : Nat := 64

/-- Rows per row group, `constexpr int UNROLL = 4`. -/
def UNROLL : Nat := 4

/-- A 256-bit vector of four `double` lanes (`__m256d`), lane 0 at the lowest
address. -/
structure M256d (R : Type) where
  d0 : R
  d1 : R
  d2 : R
  d3 : R
deriving DecidableEq, Repr

/-- A memory of complex numbers addressed by element offset from a base
pointer. -/
abbrev Mem (R : Type) := Nat → Cplx R

/-- The intrinsic `_mm256_loadu_pd` applied to the address of element `p` of a
complex buffer: four consecutive doubles, i.e. the two complex numbers at
offsets `p` and `p + 1`. -/
def mm256_loadu_pd (mem : Mem R) (p : Nat) : M256d R :=
  ⟨(mem p).re, (mem p).im, (mem (p + 1)).re, (mem (p + 1)).im⟩

/-- The intrinsic `_mm256_broadcast_pd`: the 128 bits of one complex number
copied to both halves of the vector. -/
def mm256_broadcast_pd (x : Cplx R) : M256d R :=
  ⟨x.re, x.im, x.re, x.im⟩

/-- The intrinsic `_mm256_mul_pd`: lane-wise product. -/
def mm256_mul_pd (a b : M256d R) : M256d R :=
  ⟨a.d0 * b.d0, a.d1 * b.d1, a.d2 * b.d2, a.d3 * b.d3⟩

/-- The intrinsic `_mm256_add_pd`: lane-wise sum. -/
def mm256_add_pd (a b : M256d R) : M256d R :=
  ⟨a.d0 + b.d0, a.d1 + b.d1, a.d2 + b.d2, a.d3 + b.d3⟩

/-- The intrinsic `_mm256_storeu_pd` applied to the address of element `p` of a
complex buffer: the four lanes overwrite the complex numbers at offsets `p`
and `p + 1`. -/
def mm256_storeu_pd (mem : Mem R) (p : Nat) (v : M256d R) : Mem R :=
  fun q => if q = p then ⟨v.d0, v.d1⟩ else if q = p + 1 then ⟨v.d2, v.d3⟩ else mem q

/-- Memory seen through `&A[0]`: the entries of the vector `A`, followed by
whatever lies behind the buffer, given by `oob`. -/
def vecMem (A : Array (Cplx R)) (oob : Mem R) : Mem R :=
  fun p => A.getD p (oob p)

/-- The scratch block `CB[BLOCK_SIZE][BLOCK_SIZE] = {{0.0}}` as flat memory:
`CB[r][c]` is at offset `BLOCK_SIZE * r + c`, all `BLOCK_SIZE * BLOCK_SIZE`
cells are zero, and the stack cell right behind the block holds `stk`. -/
def initCB (stk : Cplx R) : Mem R :=
  fun p => if p < BLOCK_SIZE * BLOCK_SIZE then 0 else stk

/-- Offset of `CB[r][c]` in the scratch block. -/
def cbIdx (r c : Nat) : Nat := BLOCK_SIZE * r + c

/-- One load / multiply-add / store sequence of the inner loop (lines 55-57, and
again 60-62, 65-67, 70-72): `res = load(&CB[r][c]); res += a * b;
store(&CB[r][c], res)`. -/
def rowUpdate (CB : Mem R) (r c : Nat) (a b : M256d R) : Mem R :=
  mm256_storeu_pd CB (cbIdx r c)
    (mm256_add_pd (mm256_loadu_pd CB (cbIdx r c)) (mm256_mul_pd a b))

/-- Body of the `i` loop (lines 47-74) for one row group starting at row `i`:
the four unguarded loads from `A`, then the `j` loop. -/
def rowGroup (A B : Array (Cplx R)) (oob : Mem R) (n ii jj k i : Nat) (CB : Mem R) : Mem R :=
  let i_end := min (ii + BLOCK_SIZE) n
  let j_end := min (jj + BLOCK_SIZE) n
  let a0 := mm256_loadu_pd (vecMem A oob) (i * n + k)
  let a1 := mm256_loadu_pd (vecMem A oob) ((i + 1) * n + k)
  let a2 := mm256_loadu_pd (vecMem A oob) ((i + 2) * n + k)
  let a3 := mm256_loadu_pd (vecMem A oob) ((i + 3) * n + k)
  forLoop jj j_end 1 (fun j CB =>
    let b := mm256_broadcast_pd (B.getD (k * n + j) 0)
    let CB := rowUpdate CB (i - ii) (j - jj) a0 b
    let CB := if i + 1 < i_end then rowUpdate CB (i - ii + 1) (j - jj) a1 b else CB
    let CB := if i + 2 < i_end then rowUpdate CB (i - ii + 2) (j - jj) a2 b else CB
    let CB := if i + 3 < i_end then rowUpdate CB (i - ii + 3) (j - jj) a3 b else CB
    CB) CB

/-- The accumulation of one tile (lines 38-77): a fresh scratch block, then the
`kk`, `k` and `i` loops. -/
def accumulate (A B : Array (Cplx R)) (oob : Mem R) (stk : Cplx R) (n ii jj : Nat) : Mem R :=
  forLoop 0 n BLOCK_SIZE (fun kk CB =>
    let i_end := min (ii + BLOCK_SIZE) n
    let k_end := min (kk + BLOCK_SIZE) n
    forLoop kk k_end 1 (fun k CB =>
      forLoop ii i_end UNROLL (fun i CB => rowGroup A B oob n ii jj k i CB) CB) CB)
    (initCB stk)

/-- The write-back of one tile (lines 80-84). -/
def writeBack (CB : Mem R) (n ii jj : Nat) (C : Array (Cplx R)) : Array (Cplx R) :=
  forLoop ii (min (ii + BLOCK_SIZE) n) 1 (fun i C =>
    forLoop jj (min (jj + BLOCK_SIZE) n) 1 (fun j C =>
      C.setD (i * n + j) (CB (cbIdx (i - ii) (j - jj)))) C) C

/-- The indices of `C` that the write-back loops of tile `(ii, jj)` (lines
80-84) assign, in the order of the assignments. -/
def writeBackIdx (n ii jj : Nat) : List Nat :=
  forLoop ii (min (ii + BLOCK_SIZE) n) 1 (fun i acc =>
    forLoop jj (min (jj + BLOCK_SIZE) n) 1 (fun j acc => acc ++ [i * n + j]) acc) []

/-- The work on one tile `(ii, jj)`: the body of the `jj` loop (lines 38-84). -/
def tileStep (A B : Array (Cplx R)) (oob : Mem R) (stk : Cplx R) (n : Nat)
    (t : Nat × Nat) (C : Array (Cplx R)) : Array (Cplx R) :=
  writeBack (accumulate A B oob stk n t.1 t.2) n t.1 t.2 C

/-- The blocked kernel.  `oob` is the content of the memory behind the buffer
of `A` (the 256-bit loads from `A` reach it), `stk` the content of the stack
cell behind `CB`. -/
def matrixMultiplyOptimized (A B C : Array (Cplx R)) (n : Nat) (oob : Mem R) (stk : Cplx R) :
    Array (Cplx R) :=
  forLoop 0 n BLOCK_SIZE (fun ii C =>
    forLoop 0 n BLOCK_SIZE (fun jj C => tileStep A B oob stk n (ii, jj) C) C) C

/-- The tile origins `(ii, jj)` in the order of the two outer loops: all pairs
of multiples of `BLOCK_SIZE` below `n`. -/
def tileOrigins (n : Nat) : List (Nat × Nat) :=
  (loopIdx 0 n BLOCK_SIZE).flatMap (fun ii => (loopIdx 0 n BLOCK_SIZE).map (fun jj => (ii, jj)))

/-- The lane-wise product of two complex numbers seen as pairs of lanes: what
`_mm256_mul_pd` computes on one 128-bit half. -/
def laneMul (x y : Cplx R) : Cplx R := ⟨x.re * y.re, x.im * y.im⟩

/-- One lane of a complex number: the real part for `false`, the imaginary part
for `true`. -/
def lane (l : Bool) (x : Cplx R) : R := if l then x.im else x.re

/-! ### The kernel with bounds-checked buffer accesses

The same loops, with every element access to `A`, `B` and `C` checked against
the length of the vector: the result is `none` as soon as one access leaves
its buffer.  The scratch block is accessed as before. -/

/-- A 256-bit load at `&A[p]` with both complex elements `A[p]` and `A[p+1]`
checked. -/
def loadChecked (A : Array (Cplx R)) (p : Nat) : Option (M256d R) :=
  match A[p]?, A[p + 1]? with
  | some x, some y => some ⟨x.re, x.im, y.re, y.im⟩
  | _, _ => none

/-- Checked version of `rowGroup`. -/
def rowGroupChecked (A B : Array (Cplx R)) (n ii jj k i : Nat) (CB : Mem R) : Option (Mem R) :=
  let i_end := min (ii + BLOCK_SIZE) n
  let j_end := min (jj + BLOCK_SIZE) n
  (loadChecked A (i * n + k)).bind fun a0 =>
  (loadChecked A ((i + 1) * n + k)).bind fun a1 =>
  (loadChecked A ((i + 2) * n + k)).bind fun a2 =>
  (loadChecked A ((i + 3) * n + k)).bind fun a3 =>
  forLoopM jj j_end 1 (fun j CB =>
    (B[k * n + j]?).bind fun x =>
    let b := mm256_broadcast_pd x
    let CB := rowUpdate CB (i - ii) (j - jj) a0 b
    let CB := if i + 1 < i_end then rowUpdate CB (i - ii + 1) (j - jj) a1 b else CB
    let CB := if i + 2 < i_end then rowUpdate CB (i - ii + 2) (j - jj) a2 b else CB
    let CB := if i + 3 < i_end then rowUpdate CB (i - ii + 3) (j - jj) a3 b else CB
    some CB) CB

/-- Checked version of `accumulate`. -/
def accumulateChecked (A B : Array (Cplx R)) (stk : Cplx R) (n ii jj : Nat) : Option (Mem R) :=
  forLoopM 0 n BLOCK_SIZE (fun kk CB =>
    let i_end := min (ii + BLOCK_SIZE) n
    let k_end := min (kk + BLOCK_SIZE) n
    forLoopM kk k_end 1 (fun k CB =>
      forLoopM ii i_end UNROLL (fun i CB => rowGroupChecked A B n ii jj k i CB) CB) CB)
    (initCB stk)

/-- Checked version of `writeBack`. -/
def writeBackChecked (CB : Mem R) (n ii jj : Nat) (C : Array (Cplx R)) :
    Option (Array (Cplx R)) :=
  forLoopM ii (min (ii + BLOCK_SIZE) n) 1 (fun i C =>
    forLoopM jj (min (jj + BLOCK_SIZE) n) 1 (fun j C =>
      if i * n + j < C.size then some (C.setD (i * n + j) (CB (cbIdx (i - ii) (j - jj))))
      else none) C) C

/-- Checked version of `matrixMultiplyOptimized`. -/
def matrixMultiplyOptimizedChecked (A B C : Array (Cplx R)) (n : Nat) (stk : Cplx R) :
    Option (Array (Cplx R)) :=
  forLoopM 0 n BLOCK_SIZE (fun ii C =>
    forLoopM 0 n BLOCK_SIZE (fun jj C =>
      (accumulateChecked A B stk n ii jj).bind fun CB => writeBackChecked CB n ii jj C) C) C

/-! ### The kernel with bounds-checked scratch-block accesses

The same loops, with every access to the scratch block `CB` checked against
the `BLOCK_SIZE * BLOCK_SIZE` cells of the block: the result is `none` as soon
as a load or store touches a cell outside it.  The buffers `A`, `B`, `C` are
accessed as in `matrixMultiplyOptimized`. -/

/-- Checked version of `rowUpdate`: the 256-bit load and store at `&CB[r][c]`
cover the flat cells `cbIdx r c` and `cbIdx r c + 1`, and both have to be
cells of the block. -/
def rowUpdateInBlock (CB : Mem R) (r c : Nat) (a b : M256d R) : Option (Mem R) :=
  if cbIdx r c + 1 < BLOCK_SIZE * BLOCK_SIZE then some (rowUpdate CB r c a b) else none

/-- Version of `rowGroup` with checked scratch-block accesses. -/
def rowGroupInBlock (A B : Array (Cplx R)) (oob : Mem R) (n ii jj k i : Nat) (CB : Mem R) :
    Option (Mem R) :=
  let i_end := min (ii + BLOCK_SIZE) n
  let j_end := min (jj + BLOCK_SIZE) n
  let a0 := mm256_loadu_pd (vecMem A oob) (i * n + k)
  let a1 := mm256_loadu_pd (vecMem A oob) ((i + 1) * n + k)
  let a2 := mm256_loadu_pd (vecMem A oob) ((i + 2) * n + k)
  let a3 := mm256_loadu_pd (vecMem A oob) ((i + 3) * n + k)
  forLoopM jj j_end 1 (fun j CB =>
    let b := mm256_broadcast_pd (B.getD (k * n + j) 0)
    (rowUpdateInBlock CB (i - ii) (j - jj) a0 b).bind fun CB =>
    (if i + 1 < i_end then rowUpdateInBlock CB (i - ii + 1) (j - jj) a1 b else some CB).bind
      fun CB =>
    (if i + 2 < i_end then rowUpdateInBlock CB (i - ii + 2) (j - jj) a2 b else some CB).bind
      fun CB =>
    (if i + 3 < i_end then rowUpdateInBlock CB (i - ii + 3) (j - jj) a3 b else some CB)) CB

/-- Version of `accumulate` with checked scratch-block accesses. -/
def accumulateInBlock (A B : Array (Cplx R)) (oob : Mem R) (stk : Cplx R) (n ii jj : Nat) :
    Option (Mem R) :=
  forLoopM 0 n BLOCK_SIZE (fun kk CB =>
    let i_end := min (ii + BLOCK_SIZE) n
    let k_end := min (kk + BLOCK_SIZE) n
    forLoopM kk k_end 1 (fun k CB =>
      forLoopM ii i_end UNROLL (fun i CB => rowGroupInBlock A B oob n ii jj k i CB) CB) CB)
    (initCB stk)

/-- Version of `writeBack` with the read of `CB[i - ii][j - jj]` checked. -/
def writeBackInBlock (CB : Mem R) (n ii jj : Nat) (C : Array (Cplx R)) :
    Option (Array (Cplx R)) :=
  forLoopM ii (min (ii + BLOCK_SIZE) n) 1 (fun i C =>
    forLoopM jj (min (jj + BLOCK_SIZE) n) 1 (fun j C =>
      if cbIdx (i - ii) (j - jj) < BLOCK_SIZE * BLOCK_SIZE then
        some (C.setD (i * n + j) (CB (cbIdx (i - ii) (j - jj))))
      else none) C) C

/-- Version of `matrixMultiplyOptimized` with checked scratch-block accesses. -/
def matrixMultiplyOptimizedInBlock (A B C : Array (Cplx R)) (n : Nat) (oob : Mem R)
    (stk : Cplx R) : Option (Array (Cplx R)) :=
  forLoopM 0 n BLOCK_SIZE (fun ii C =>
    forLoopM 0 n BLOCK_SIZE (fun jj C =>
      (accumulateInBlock A B oob stk n ii jj).bind fun CB => writeBackInBlock CB n ii jj C) C) C

end Kernel

/-! ## Loops as folds -/

theorem loopCount_succ {step hi i : Nat} (hstep : 0 < step) (h : i < hi) :
    (hi - i + step - 1) / step = (hi - (i + step) + step - 1) / step + 1 := by
  rcases Nat.lt_or_ge (i + step) hi with h1 | h1
  · have e : hi - i + step - 1 = (hi - (i + step) + step - 1) + step := by omega
    rw [e, Nat.add_div_right _ hstep]
  · have e1 : hi - (i + step) + step - 1 = step - 1 := by omega
    have e2 : hi - i + step - 1 = (hi - i - 1) + step := by omega
    rw [e1, e2, Nat.add_div_right _ hstep, Nat.div_eq_of_lt (by omega),
      Nat.div_eq_of_lt (by omega)]

theorem loopCount_zero {step hi i : Nat} (hstep : 0 < step) (h : hi ≤ i) :
    (hi - i + step - 1) / step = 0 := by
  have e : hi - i + step - 1 = step - 1 := by omega
  rw [e, Nat.div_eq_of_lt (by omega)]

theorem forLoopAux_eq_foldl {σ : Type} {step hi : Nat} (hstep : 0 < step)
    (body : Nat → σ → σ) :
    ∀ (fuel i : Nat) (s : σ), hi - i ≤ fuel →
      forLoopAux step hi body fuel i s
        = (loopIdx i hi step).foldl (fun s i => body i s) s := by
  intro fuel
  induction fuel with
  | zero =>
    intro i s h
    have hle : hi ≤ i := by omega
    simp [forLoopAux, loopIdx, loopCount_zero hstep hle]
  | succ fuel ih =>
    intro i s h
    by_cases hlt : i < hi
    · have hrec := ih (i + step) (body i s) (by omega)
      simp only [forLoopAux, hlt, if_true, hrec, loopIdx, loopCount_succ hstep hlt,
        List.range'_succ, List.foldl_cons]
    · have hle : hi ≤ i := by omega
      simp [forLoopAux, hlt, loopIdx, loopCount_zero hstep hle]

/-- Fuel: any fuel of at least `hi - i` gives the result of the loop. -/
theorem forLoopAux_fuel {σ : Type} {step hi : Nat} (hstep : 0 < step)
    (body : Nat → σ → σ) (fuel i : Nat) (s : σ) (h : hi - i ≤ fuel) :
    forLoopAux step hi body fuel i s = forLoopAux step hi body (hi - i) i s := by
  rw [forLoopAux_eq_foldl hstep body fuel i s h,
    forLoopAux_eq_foldl hstep body (hi - i) i s (Nat.le_refl _)]

theorem forLoop_eq_foldl {σ : Type} {step : Nat} (hstep : 0 < step) (lo hi : Nat)
    (body : Nat → σ → σ) (s : σ) :
    forLoop lo hi step body s = (loopIdx lo hi step).foldl (fun s i => body i s) s :=
  forLoopAux_eq_foldl hstep body (hi - lo) lo s (Nat.le_refl _)

theorem loopIdx_one (lo hi : Nat) : loopIdx lo hi 1 = List.range' lo (hi - lo) := by
  simp [loopIdx]

theorem mem_loopIdx_one {lo hi i : Nat} : i ∈ loopIdx lo hi 1 ↔ lo ≤ i ∧ i < hi := by
  rw [loopIdx_one, List.mem_range'_1]; omega

theorem mem_loopIdx {lo hi step i : Nat} (hstep : 0 < step) :
    i ∈ loopIdx lo hi step ↔ lo ≤ i ∧ i < hi ∧ step ∣ (i - lo) := by
  unfold loopIdx
  rw [List.mem_range']
  constructor
  · rintro ⟨t, ht, rfl⟩
    refine ⟨by omega, ?_, ?_⟩
    · rw [Nat.lt_iff_add_one_le, Nat.le_div_iff_mul_le hstep, Nat.add_mul, Nat.mul_comm] at ht
      omega
    · simp
  · rintro ⟨h1, h2, ⟨t, ht⟩⟩
    refine ⟨t, ?_, by omega⟩
    rw [Nat.lt_iff_add_one_le, Nat.le_div_iff_mul_le hstep, Nat.add_mul, Nat.mul_comm]
    omega

theorem loopIdx_nodup (lo hi step : Nat) (hstep : 0 < step) : (loopIdx lo hi step).Nodup := by
  unfold loopIdx
  exact List.nodup_range' _ _ step hstep

theorem forLoop_id {σ : Type} (lo hi step : Nat) (body : Nat → σ → σ)
    (h : ∀ i s, body i s = s) (s : σ) : forLoop lo hi step body s = s := by
  unfold forLoop
  generalize hi - lo = fuel
  induction fuel generalizing lo s with
  | zero => rfl
  | succ fuel ih =>
    simp only [forLoopAux]
    split
    · rw [h]; exact ih _ _
    · rfl

/-- Two runs of a loop whose bodies preserve a relation between the states end
in related states. -/
theorem forLoop_rel {σ τ : Type} (Rel : σ → τ → Prop) (lo hi step : Nat)
    (body : Nat → σ → σ) (body1 : Nat → τ → τ)
    (h : ∀ i s t, Rel s t → Rel (body i s) (body1 i t)) (s : σ) (t : τ) (hst : Rel s t) :
    Rel (forLoop lo hi step body s) (forLoop lo hi step body1 t) := by
  unfold forLoop
  generalize hi - lo = fuel
  induction fuel generalizing lo s t with
  | zero => exact hst
  | succ fuel ih =>
    simp only [forLoopAux]
    split
    · exact ih _ _ _ (h _ _ _ hst)
    · exact hst

theorem foldl_flatMap_eq {α β σ : Type} (f : σ → β → σ) (g : α → List β) :
    ∀ (l : List α) (s : σ),
      (l.flatMap g).foldl f s = l.foldl (fun s a => (g a).foldl f s) s := by
  intro l
  induction l with
  | nil => intro s; rfl
  | cons a rest ih =>
    intro s
    rw [List.flatMap_cons, List.foldl_append, ih, List.foldl_cons]

/-- A loop whose body adds `g i` to an observed quantity adds the sum of the
`g i` over its iterations. -/
theorem foldl_obs {σ M : Type} [AddCommMonoid M] (v : σ → M) (body : Nat → σ → σ)
    (g : Nat → M) :
    ∀ (l : List Nat) (s : σ), (∀ i ∈ l, ∀ s, v (body i s) = v s + g i) →
      v (l.foldl (fun s i => body i s) s) = v s + (l.map g).sum := by
  intro l
  induction l with
  | nil => intro s _; simp
  | cons a rest ih =>
    intro s h
    rw [List.foldl_cons, ih _ (fun i hi => h i (List.mem_cons_of_mem _ hi)),
      h a (List.mem_cons_self _ _), List.map_cons, List.sum_cons, add_assoc]

theorem forLoopMAux_eq_foldlM {σ : Type} {step hi : Nat} (hstep : 0 < step)
    (body : Nat → σ → Option σ) :
    ∀ (fuel i : Nat) (s : σ), hi - i ≤ fuel →
      forLoopMAux step hi body fuel i s
        = (loopIdx i hi step).foldlM (fun s i => body i s) s := by
  intro fuel
  induction fuel with
  | zero =>
    intro i s h
    have hle : hi ≤ i := by omega
    simp [forLoopMAux, loopIdx, loopCount_zero hstep hle]
  | succ fuel ih =>
    intro i s h
    by_cases hlt : i < hi
    · have hrec : ∀ t, forLoopMAux step hi body fuel (i + step) t
          = (loopIdx (i + step) hi step).foldlM (fun s i => body i s) t :=
        fun t => ih (i + step) t (by omega)
      simp only [forLoopMAux, hlt, if_true, hrec, loopIdx, loopCount_succ hstep hlt,
        List.range'_succ, List.foldlM_cons, Option.bind_eq_bind]
    · have hle : hi ≤ i := by omega
      simp [forLoopMAux, hlt, loopIdx, loopCount_zero hstep hle]

theorem forLoopM_eq_foldlM {σ : Type} {step : Nat} (hstep : 0 < step) (lo hi : Nat)
    (body : Nat → σ → Option σ) (s : σ) :
    forLoopM lo hi step body s = (loopIdx lo hi step).foldlM (fun s i => body i s) s :=
  forLoopMAux_eq_foldlM hstep body (hi - lo) lo s (Nat.le_refl _)

theorem foldlM_none {σ : Type} (body : Nat → σ → Option σ) (x : Nat)
    (hx : ∀ s, body x s = none) :
    ∀ (l : List Nat) (s : σ), x ∈ l → l.foldlM (fun s i => body i s) s = none := by
  intro l
  induction l with
  | nil => intro s h; simp at h
  | cons a rest ih =>
    intro s h
    rw [List.foldlM_cons]
    by_cases ha : a = x
    · rw [ha, hx]; rfl
    · have hmem : x ∈ rest := by
        rcases List.mem_cons.1 h with e | e
        · exact absurd e.symm ha
        · exact e
      cases hb : body a s with
      | none => rfl
      | some t => exact ih t hmem

/-- A checked loop fails when one of its iterations fails from every state. -/
theorem forLoopM_none {σ : Type} {step : Nat} (hstep : 0 < step) (lo hi : Nat)
    (body : Nat → σ → Option σ) (s : σ) (x : Nat) (hmem : x ∈ loopIdx lo hi step)
    (hx : ∀ s, body x s = none) : forLoopM lo hi step body s = none := by
  rw [forLoopM_eq_foldlM hstep]
  exact foldlM_none body x hx _ s hmem

theorem foldlM_some {σ : Type} (bodyM : Nat → σ → Option σ) (body : Nat → σ → σ) :
    ∀ (l : List Nat) (s : σ), (∀ i ∈ l, ∀ s, bodyM i s = some (body i s)) →
      l.foldlM (fun s i => bodyM i s) s = some (l.foldl (fun s i => body i s) s) := by
  intro l
  induction l with
  | nil => intro s _; rfl
  | cons a rest ih =>
    intro s h
    rw [List.foldlM_cons, h a (List.mem_cons_self _ _), List.foldl_cons]
    exact ih _ (fun i hi => h i (List.mem_cons_of_mem _ hi))

/-- A checked loop whose iterations all succeed returns the result of the
unchecked loop. -/
theorem forLoopM_some {σ : Type} {step : Nat} (hstep : 0 < step) (lo hi : Nat)
    (bodyM : Nat → σ → Option σ) (body : Nat → σ → σ) (s : σ)
    (h : ∀ i ∈ loopIdx lo hi step, ∀ s, bodyM i s = some (body i s)) :
    forLoopM lo hi step bodyM s = some (forLoop lo hi step body s) := by
  rw [forLoopM_eq_foldlM hstep, forLoop_eq_foldl hstep]
  exact foldlM_some bodyM body _ s h

/-! ## Sums over the iterations of a loop -/

theorem sum_ite_none {M : Type} [AddCommMonoid M] (P : Nat → Prop) [DecidablePred P]
    (f : Nat → M) :
    ∀ l : List Nat, (∀ i ∈ l, ¬ P i) → (l.map (fun i => if P i then f i else 0)).sum = 0 := by
  intro l
  induction l with
  | nil => intro _; rfl
  | cons a rest ih =>
    intro h
    rw [List.map_cons, List.sum_cons, ih (fun i hi => h i (List.mem_cons_of_mem _ hi)),
      if_neg (h a (List.mem_cons_self _ _)), add_zero]

theorem sum_ite_unique {M : Type} [AddCommMonoid M] (P : Nat → Prop) [DecidablePred P]
    (f : Nat → M) (a : Nat) :
    ∀ l : List Nat, l.Nodup → a ∈ l → (∀ i ∈ l, P i ↔ i = a) →
      (l.map (fun i => if P i then f i else 0)).sum = f a := by
  intro l
  induction l with
  | nil => intro _ h; simp at h
  | cons b rest ih =>
    intro hnd hmem hP
    rw [List.map_cons, List.sum_cons]
    have hnd2 := List.nodup_cons.1 hnd
    by_cases hb : b = a
    · subst hb
      rw [if_pos ((hP b (List.mem_cons_self _ _)).2 rfl),
        sum_ite_none P f rest (fun i hi hPi => by
          have := (hP i (List.mem_cons_of_mem _ hi)).1 hPi
          subst this
          exact hnd2.1 hi), add_zero]
    · have hmem2 : a ∈ rest := by
        rcases List.mem_cons.1 hmem with e | e
        · exact absurd e.symm hb
        · exact e
      rw [if_neg (fun h => hb ((hP b (List.mem_cons_self _ _)).1 h)),
        ih hnd2.2 hmem2 (fun i hi => hP i (List.mem_cons_of_mem _ hi)), zero_add]

theorem sum_map_range {M : Type} [AddCommMonoid M] (f : Nat → M) (n : Nat) :
    ((List.range n).map f).sum = ∑ k in Finset.range n, f k := by
  induction n with
  | zero => simp
  | succ n ih =>
    rw [List.range_succ, List.map_append, List.sum_append, ih, Finset.sum_range_succ]
    simp

theorem four_rows {M : Type} [AddCommMonoid M] (i r0 : Nat) (Z : M) :
    (if r0 = i then Z else 0) + (if r0 = i + 1 then Z else 0) + (if r0 = i + 2 then Z else 0)
        + (if r0 = i + 3 then Z else 0)
      = if i ≤ r0 ∧ r0 < i + 4 then Z else 0 := by
  have h : r0 = i ∨ r0 = i + 1 ∨ r0 = i + 2 ∨ r0 = i + 3 ∨ ¬ (i ≤ r0 ∧ r0 < i + 4) := by omega
  rcases h with h | h | h | h | h
  · subst h; simp
  · subst h; simp
  · subst h; simp
  · subst h; simp
  · have h0 : ¬ r0 = i := by omega
    have h1 : ¬ r0 = i + 1 := by omega
    have h2 : ¬ r0 = i + 2 := by omega
    have h3 : ¬ r0 = i + 3 := by omega
    simp only [h, h0, h1, h2, h3, if_false, add_zero]

/-! ## Stores into a row-major buffer -/

theorem getElem?_setD {α : Type} (C : Array α) (p q : Nat) (v : α) (h : p < C.size) :
    (C.setD p v)[q]? = if q = p then some v else C[q]? := by
  simp only [Array.setD, h, dite_true]
  by_cases hq : q = p
  · subst hq
    simp only [if_true]
    exact Array.getElem?_set_eq C ⟨q, h⟩ v
  · simp only [hq, if_false]
    exact Array.getElem?_set_ne C ⟨p, h⟩ v (fun e => hq e.symm)

theorem array_ext_getElem? {α : Type} {a b : Array α} (h : ∀ q : Nat, a[q]? = b[q]?) : a = b := by
  apply Array.ext'
  apply List.ext_getElem?
  intro q
  simpa using h q

theorem idx_lt {n i j : Nat} (hi : i < n) (hj : j < n) : i * n + j < n * n := by
  have : (i + 1) * n ≤ n * n := Nat.mul_le_mul_right n hi
  rw [Nat.add_mul] at this
  omega

theorem idx_eq_iff {n i j q : Nat} (hj : j < n) : q = i * n + j ↔ q / n = i ∧ q % n = j := by
  have hn : 0 < n := by omega
  constructor
  · rintro rfl
    constructor
    · rw [Nat.mul_comm, Nat.mul_add_div hn, Nat.div_eq_of_lt hj]; rfl
    · rw [Nat.mul_comm, Nat.mul_add_mod, Nat.mod_eq_of_lt hj]
  · rintro ⟨rfl, rfl⟩
    rw [Nat.mul_comm]
    exact (Nat.div_add_mod q n).symm

theorem div_lt_of_lt_sq {n q : Nat} (h : q < n * n) : q / n < n :=
  (Nat.div_lt_iff_lt_mul (Nat.pos_of_ne_zero (by rintro rfl; simp at h))).2 h

theorem lt_sq_of_div_lt {n q : Nat} (h : q / n < n) : q < n * n :=
  (Nat.div_lt_iff_lt_mul (Nat.lt_of_le_of_lt (Nat.zero_le _) h)).1 h

theorem last_idx (n : Nat) (hn : 0 < n) : (n - 1) * n + (n - 1) + 1 = n * n := by
  obtain ⟨m, rfl⟩ : ∃ m, n = m + 1 := ⟨n - 1, by omega⟩
  simp only [Nat.add_sub_cancel]
  ring

/-- A loop storing `val j` at `C[i*n+j]` for the columns `j` of `cols`. -/
theorem rowStore_getElem? {α : Type} (n i : Nat) (val : Nat → α) (hi : i < n) :
    ∀ (cols : List Nat) (C : Array α), (∀ j ∈ cols, j < n) → C.size = n * n → ∀ q,
      (cols.foldl (fun C j => C.setD (i * n + j) (val j)) C).size = n * n ∧
      (cols.foldl (fun C j => C.setD (i * n + j) (val j)) C)[q]?
        = if q / n = i ∧ q % n ∈ cols then some (val (q % n)) else C[q]? := by
  intro cols
  induction cols with
  | nil => intro C _ hC q; simp [hC]
  | cons j rest ih =>
    intro C hcols hC q
    have hj : j < n := hcols j (List.mem_cons_self _ _)
    have hlt : i * n + j < C.size := hC ▸ idx_lt hi hj
    have hC1 : (C.setD (i * n + j) (val j)).size = n * n := by simp [hC]
    obtain ⟨h1, h2⟩ := ih (C.setD (i * n + j) (val j))
      (fun x hx => hcols x (List.mem_cons_of_mem _ hx)) hC1 q
    refine ⟨by simpa using h1, ?_⟩
    rw [List.foldl_cons, h2, getElem?_setD _ _ _ _ hlt]
    by_cases hq : q = i * n + j
    · obtain ⟨e1, e2⟩ := (idx_eq_iff hj).1 hq
      subst hq
      simp only [e1, e2, if_true, true_and, List.mem_cons, true_or]
      split <;> rfl
    · have hne : ¬ (q / n = i ∧ q % n = j) := fun h => hq ((idx_eq_iff hj).2 h)
      by_cases h3 : q / n = i
      · have h4 : q % n ≠ j := fun h => hne ⟨h3, h⟩
        simp [hq, h3, h4]
      · simp [hq, h3]

/-- Two nested loops storing `val i j` at `C[i*n+j]` for the rows `i` of
`rows` and the columns `j` of `cols`. -/
theorem gridStore_getElem? {α : Type} (n : Nat) (val : Nat → Nat → α) (cols : List Nat)
    (hcols : ∀ j ∈ cols, j < n) :
    ∀ (rows : List Nat) (C : Array α), (∀ i ∈ rows, i < n) → C.size = n * n → ∀ q,
      (rows.foldl (fun C i => cols.foldl (fun C j => C.setD (i * n + j) (val i j)) C) C).size
        = n * n ∧
      (rows.foldl (fun C i => cols.foldl (fun C j => C.setD (i * n + j) (val i j)) C) C)[q]?
        = if q / n ∈ rows ∧ q % n ∈ cols then some (val (q / n) (q % n)) else C[q]? := by
  intro rows
  induction rows with
  | nil => intro C _ hC q; simp [hC]
  | cons i rest ih =>
    intro C hrows hC q
    have hi : i < n := hrows i (List.mem_cons_self _ _)
    have hrow := rowStore_getElem? n i (val i) hi cols C hcols hC
    obtain ⟨h1, h2⟩ := ih (cols.foldl (fun C j => C.setD (i * n + j) (val i j)) C)
      (fun x hx => hrows x (List.mem_cons_of_mem _ hx)) (hrow q).1 q
    refine ⟨by simpa using h1, ?_⟩
    rw [List.foldl_cons, h2, (hrow q).2]
    by_cases h3 : q / n = i
    · by_cases h4 : q % n ∈ cols
      · simp [h3, h4]
      · simp [h3, h4]
    · have h5 : ¬ (i = q / n) := fun h => h3 h.symm
      simp [h3, h5]

/-! ## The naive multiplication -/

section NaiveProofs

variable {R : Type} [CommRing R]

theorem foldl_add_range (f : Nat → Cplx R) (n : Nat) :
    (List.range n).foldl (fun s k => s + f k) 0 = ∑ k in Finset.range n, f k := by
  induction n with
  | zero => simp
  | succ n ih => rw [List.range_succ, List.foldl_append, ih, Finset.sum_range_succ]; rfl

theorem sumLoop_eq (f : Nat → Cplx R) (n : Nat) :
    forLoop 0 n 1 (fun k sum => sum + f k) 0 = (List.range n).foldl (fun s k => s + f k) 0 := by
  rw [forLoop_eq_foldl Nat.one_pos, loopIdx_one, Nat.sub_zero, List.range_eq_range']

theorem matrixMultiply_getElem? (A B C : Array (Cplx R)) (n : Nat) (hC : C.size = n * n)
    (q : Nat) :
    (matrixMultiply A B C n)[q]?
      = if q < n * n then
          some ((List.range n).foldl
            (fun s k => s + A.getD (q / n * n + k) 0 * B.getD (k * n + q % n) 0) 0)
        else none := by
  have hmem : ∀ i ∈ loopIdx 0 n 1, i < n := fun i hi => (mem_loopIdx_one.1 hi).2
  have key := (gridStore_getElem? n
    (fun i j => forLoop 0 n 1
      (fun k (sum : Cplx R) => sum + A.getD (i * n + k) 0 * B.getD (k * n + j) 0) 0)
    (loopIdx 0 n 1) hmem (loopIdx 0 n 1) C hmem hC q).2
  have hfold : matrixMultiply A B C n
      = (loopIdx 0 n 1).foldl (fun C i => (loopIdx 0 n 1).foldl (fun C j =>
          C.setD (i * n + j) (forLoop 0 n 1
            (fun k (sum : Cplx R) => sum + A.getD (i * n + k) 0 * B.getD (k * n + j) 0) 0))
          C) C := by
    unfold matrixMultiply
    rw [forLoop_eq_foldl Nat.one_pos]
    congr 1
    funext C i
    rw [forLoop_eq_foldl Nat.one_pos]
  rw [hfold, key]
  by_cases hq : q < n * n
  · have h1 : q / n < n := div_lt_of_lt_sq hq
    have h2 : q % n < n := Nat.mod_lt _ (Nat.lt_of_le_of_lt (Nat.zero_le _) h1)
    simp only [mem_loopIdx_one, Nat.zero_le, true_and, h1, h2, and_self, if_true, hq,
      sumLoop_eq]
  · have h1 : ¬ q / n < n := fun h => hq (lt_sq_of_div_lt h)
    have h3 : C[q]? = none := Array.getElem?_len_le C (by omega)
    simp only [mem_loopIdx_one, Nat.zero_le, true_and, h1, false_and, if_false, hq, h3]

end NaiveProofs

/-! ## The write-back and the tiles -/

theorem writeBack_eq_foldl {R : Type} (CB : Mem R) (n ii jj : Nat) (C : Array (Cplx R)) :
    writeBack CB n ii jj C
      = (loopIdx ii (min (ii + BLOCK_SIZE) n) 1).foldl (fun C i =>
          (loopIdx jj (min (jj + BLOCK_SIZE) n) 1).foldl (fun C j =>
            C.setD (i * n + j) (CB (cbIdx (i - ii) (j - jj)))) C) C := by
  unfold writeBack
  rw [forLoop_eq_foldl Nat.one_pos]
  congr 1
  funext C i
  rw [forLoop_eq_foldl Nat.one_pos]

/-- The write-back of tile `(ii, jj)` stores the scratch cell
`CB[q/n - ii][q%n - jj]` at every index `q` of the tile and leaves the other
entries of `C` alone. -/
theorem writeBack_getElem? {R : Type} (CB : Mem R) (n ii jj : Nat) (C : Array (Cplx R))
    (hC : C.size = n * n) (q : Nat) :
    (writeBack CB n ii jj C).size = n * n ∧
    (writeBack CB n ii jj C)[q]?
      = if (ii ≤ q / n ∧ q / n < min (ii + BLOCK_SIZE) n) ∧
            (jj ≤ q % n ∧ q % n < min (jj + BLOCK_SIZE) n)
        then some (CB (cbIdx (q / n - ii) (q % n - jj))) else C[q]? := by
  have hrows : ∀ i ∈ loopIdx ii (min (ii + BLOCK_SIZE) n) 1, i < n := fun i hi =>
    Nat.lt_of_lt_of_le (mem_loopIdx_one.1 hi).2 (Nat.min_le_right _ _)
  have hcols : ∀ j ∈ loopIdx jj (min (jj + BLOCK_SIZE) n) 1, j < n := fun j hj =>
    Nat.lt_of_lt_of_le (mem_loopIdx_one.1 hj).2 (Nat.min_le_right _ _)
  have key := gridStore_getElem? n (fun i j => CB (cbIdx (i - ii) (j - jj)))
    (loopIdx jj (min (jj + BLOCK_SIZE) n) 1) hcols
    (loopIdx ii (min (ii + BLOCK_SIZE) n) 1) C hrows hC q
  rw [writeBack_eq_foldl]
  refine ⟨key.1, ?_⟩
  rw [key.2]
  simp only [mem_loopIdx_one]

theorem foldl_append_singleton (f : Nat → Nat) :
    ∀ (l : List Nat) (acc : List Nat),
      l.foldl (fun acc j => acc ++ [f j]) acc = acc ++ l.map f := by
  intro l
  induction l with
  | nil => intro acc; simp
  | cons a rest ih => intro acc; rw [List.foldl_cons, ih]; simp

theorem foldl_append_map (f : Nat → Nat → Nat) (cols : List Nat) :
    ∀ (rows : List Nat) (acc : List Nat),
      rows.foldl (fun acc i => acc ++ cols.map (f i)) acc
        = acc ++ rows.flatMap (fun i => cols.map (f i)) := by
  intro rows
  induction rows with
  | nil => intro acc; simp
  | cons a rest ih => intro acc; rw [List.foldl_cons, ih]; simp

theorem writeBackIdx_eq (n ii jj : Nat) :
    writeBackIdx n ii jj
      = (loopIdx ii (min (ii + BLOCK_SIZE) n) 1).flatMap (fun i =>
          (loopIdx jj (min (jj + BLOCK_SIZE) n) 1).map (fun j => i * n + j)) := by
  unfold writeBackIdx
  rw [forLoop_eq_foldl Nat.one_pos]
  have h : (fun (acc : List Nat) i =>
        forLoop jj (min (jj + BLOCK_SIZE) n) 1 (fun j acc => acc ++ [i * n + j]) acc)
      = fun acc i => acc ++ (loopIdx jj (min (jj + BLOCK_SIZE) n) 1).map (fun j => i * n + j) := by
    funext acc i
    rw [forLoop_eq_foldl Nat.one_pos, foldl_append_singleton]
  rw [h, foldl_append_map, List.nil_append]

/-- The write-back loops of tile `(ii, jj)` assign exactly the indices
`i * n + j` with `i` and `j` in the clipped row and column range of the tile. -/
theorem mem_writeBackIdx {n ii jj q : Nat} :
    q ∈ writeBackIdx n ii jj ↔
      ∃ i j, (ii ≤ i ∧ i < min (ii + BLOCK_SIZE) n) ∧
        (jj ≤ j ∧ j < min (jj + BLOCK_SIZE) n) ∧ q = i * n + j := by
  rw [writeBackIdx_eq]
  simp only [List.mem_flatMap, List.mem_map, mem_loopIdx_one]
  constructor
  · rintro ⟨i, hi, j, hj, rfl⟩
    exact ⟨i, j, hi, hj, rfl⟩
  · rintro ⟨i, j, hi, hj, rfl⟩
    exact ⟨i, hi, j, hj, rfl⟩

/-- The write-back of a tile is the sequence of stores into `C` at the indices
of `writeBackIdx`, each taking the scratch cell of its row and column. -/
theorem writeBack_eq_foldl_idx {R : Type} (CB : Mem R) (n ii jj : Nat) (C : Array (Cplx R)) :
    writeBack CB n ii jj C
      = (writeBackIdx n ii jj).foldl
          (fun C q => C.setD q (CB (cbIdx (q / n - ii) (q % n - jj)))) C := by
  rw [writeBack_eq_foldl, writeBackIdx_eq, foldl_flatMap_eq]
  apply List.foldl_ext
  intro C i _
  rw [List.foldl_map]
  apply List.foldl_ext
  intro C j hj
  have hjn : j < n := Nat.lt_of_lt_of_le (mem_loopIdx_one.1 hj).2 (Nat.min_le_right _ _)
  obtain ⟨e1, e2⟩ := (idx_eq_iff (i := i) hjn).1 rfl
  rw [e1, e2]

/-- Origin of the tile that contains row (or column) `i`. -/
theorem tile_unique {ii i n : Nat} (hii : BLOCK_SIZE ∣ ii) (hi : i < n) :
    (ii ≤ i ∧ i < min (ii + BLOCK_SIZE) n) ↔ ii = BLOCK_SIZE * (i / BLOCK_SIZE) := by
  obtain ⟨a, rfl⟩ := hii
  simp only [BLOCK_SIZE] at *
  omega

theorem sub_tile_origin (i : Nat) :
    i - BLOCK_SIZE * (i / BLOCK_SIZE) = i % BLOCK_SIZE := by
  simp only [BLOCK_SIZE]
  omega

theorem mem_tileOrigins {n : Nat} {t : Nat × Nat} :
    t ∈ tileOrigins n ↔
      (t.1 < n ∧ BLOCK_SIZE ∣ t.1) ∧ (t.2 < n ∧ BLOCK_SIZE ∣ t.2) := by
  have hpos : 0 < BLOCK_SIZE := by decide
  obtain ⟨a, b⟩ := t
  simp only [tileOrigins, List.mem_flatMap, List.mem_map, Prod.mk.injEq, mem_loopIdx hpos,
    Nat.zero_le, true_and, Nat.sub_zero]
  constructor
  · rintro ⟨x, hx, y, hy, rfl, rfl⟩
    exact ⟨hx, hy⟩
  · rintro ⟨hx, hy⟩
    exact ⟨a, hx, b, hy, rfl, rfl⟩

theorem loopIdx_block_single {n : Nat} (h1 : 1 ≤ n) (h2 : n ≤ 64) :
    loopIdx 0 n BLOCK_SIZE = [0] := by
  have e : (n - 0 + BLOCK_SIZE - 1) / BLOCK_SIZE = 1 := by
    simp only [BLOCK_SIZE]
    omega
  unfold loopIdx
  rw [e]
  rfl

theorem cbIdx_eq_iff {r r0 c c0 : Nat} (hc : c < 64) (hc0 : c0 < 64) :
    cbIdx r0 c0 = cbIdx r c ↔ r0 = r ∧ c0 = c := by
  simp only [cbIdx, BLOCK_SIZE]
  omega

theorem cbIdx_eq_succ_iff {r r0 c c0 : Nat} (hc : c + 1 < 64) (hc0 : c0 < 64) :
    cbIdx r0 c0 = cbIdx r c + 1 ↔ r0 = r ∧ c0 = c + 1 := by
  simp only [cbIdx, BLOCK_SIZE]
  omega

/-! ## Structure of the blocked kernel -/

section KernelProofs

variable {R : Type} [CommRing R]

/-- Sequential execution of the tile steps of a list `L` of block-aligned tile
origins, in any order and with any repetitions: entry `q` ends up holding the
accumulated scratch cell of its own tile if that tile is in `L`, and is
untouched otherwise. -/
theorem foldl_tileStep_getElem? (A B : Array (Cplx R)) (oob : Mem R) (stk : Cplx R) (n : Nat) :
    ∀ (L : List (Nat × Nat)) (C : Array (Cplx R)),
      (∀ t ∈ L, BLOCK_SIZE ∣ t.1 ∧ BLOCK_SIZE ∣ t.2) → C.size = n * n → ∀ q,
      (L.foldl (fun C t => tileStep A B oob stk n t C) C).size = n * n ∧
      (L.foldl (fun C t => tileStep A B oob stk n t C) C)[q]?
        = if q < n * n ∧
              (BLOCK_SIZE * (q / n / BLOCK_SIZE), BLOCK_SIZE * (q % n / BLOCK_SIZE)) ∈ L
          then some (accumulate A B oob stk n (BLOCK_SIZE * (q / n / BLOCK_SIZE))
            (BLOCK_SIZE * (q % n / BLOCK_SIZE))
            (cbIdx (q / n % BLOCK_SIZE) (q % n % BLOCK_SIZE)))
          else C[q]? := by
  intro L
  induction L with
  | nil => intro C _ hC q; simp [hC]
  | cons t rest ih =>
    intro C hL hC q
    obtain ⟨ht1, ht2⟩ := hL t (List.mem_cons_self _ _)
    have hstep := writeBack_getElem? (accumulate A B oob stk n t.1 t.2) n t.1 t.2 C hC
    obtain ⟨h1, h2⟩ := ih (tileStep A B oob stk n t C)
      (fun x hx => hL x (List.mem_cons_of_mem _ hx)) (hstep q).1 q
    refine ⟨by simpa using h1, ?_⟩
    rw [List.foldl_cons, h2]
    unfold tileStep
    rw [(hstep q).2]
    obtain ⟨ii, jj⟩ := t
    by_cases hq : q < n * n
    · have hi : q / n < n := div_lt_of_lt_sq hq
      have hj : q % n < n := Nat.mod_lt _ (Nat.lt_of_le_of_lt (Nat.zero_le _) hi)
      simp only [tile_unique ht1 hi, tile_unique ht2 hj, hq, true_and, List.mem_cons,
        Prod.mk.injEq]
      by_cases hmem : (BLOCK_SIZE * (q / n / BLOCK_SIZE), BLOCK_SIZE * (q % n / BLOCK_SIZE)) ∈ rest
      · simp only [hmem, if_true, or_true]
      · by_cases ht : ii = BLOCK_SIZE * (q / n / BLOCK_SIZE) ∧
            jj = BLOCK_SIZE * (q % n / BLOCK_SIZE)
        · obtain ⟨e1, e2⟩ := ht
          subst e1 e2
          simp only [hmem, if_false, and_self, if_true, or_false, sub_tile_origin]
        · have e : ¬ (BLOCK_SIZE * (q / n / BLOCK_SIZE) = ii ∧
              BLOCK_SIZE * (q % n / BLOCK_SIZE) = jj) := fun h => ht ⟨h.1.symm, h.2.symm⟩
          simp only [hmem, if_false, ht, e, or_self]
    · have hi : ¬ q / n < n := fun h => hq (lt_sq_of_div_lt h)
      have hi2 : ¬ (q / n < min (ii + BLOCK_SIZE) n) := fun h =>
        hi (Nat.lt_of_lt_of_le h (Nat.min_le_right _ _))
      simp only [hq, false_and, if_false, hi2, and_false]

/-- The two outer loops run the tile steps over `tileOrigins n`, in that
order. -/
theorem matrixMultiplyOptimized_eq_foldl (A B C : Array (Cplx R)) (n : Nat) (oob : Mem R)
    (stk : Cplx R) :
    matrixMultiplyOptimized A B C n oob stk
      = (tileOrigins n).foldl (fun C t => tileStep A B oob stk n t C) C := by
  have hpos : 0 < BLOCK_SIZE := by decide
  unfold matrixMultiplyOptimized tileOrigins
  rw [foldl_flatMap_eq, forLoop_eq_foldl hpos]
  congr 1
  funext C ii
  rw [forLoop_eq_foldl hpos, List.foldl_map]

/-- Every entry of the output is the accumulated scratch cell of its tile. -/
theorem matrixMultiplyOptimized_getElem? (A B C : Array (Cplx R)) (n : Nat) (oob : Mem R)
    (stk : Cplx R) (hC : C.size = n * n) (q : Nat) :
    (matrixMultiplyOptimized A B C n oob stk)[q]?
      = if q < n * n then
          some (accumulate A B oob stk n (BLOCK_SIZE * (q / n / BLOCK_SIZE))
            (BLOCK_SIZE * (q % n / BLOCK_SIZE))
            (cbIdx (q / n % BLOCK_SIZE) (q % n % BLOCK_SIZE)))
        else none := by
  rw [matrixMultiplyOptimized_eq_foldl,
    (foldl_tileStep_getElem? A B oob stk n (tileOrigins n) C
      (fun t ht => ⟨(mem_tileOrigins.1 ht).1.2, (mem_tileOrigins.1 ht).2.2⟩) hC q).2]
  by_cases hq : q < n * n
  · have hi : q / n < n := div_lt_of_lt_sq hq
    have hj : q % n < n := Nat.mod_lt _ (Nat.lt_of_le_of_lt (Nat.zero_le _) hi)
    have hmem : (BLOCK_SIZE * (q / n / BLOCK_SIZE), BLOCK_SIZE * (q % n / BLOCK_SIZE))
        ∈ tileOrigins n := by
      rw [mem_tileOrigins]
      refine ⟨⟨?_, Nat.dvd_mul_right _ _⟩, ⟨?_, Nat.dvd_mul_right _ _⟩⟩
      · exact Nat.lt_of_le_of_lt (Nat.mul_div_le _ _) hi
      · exact Nat.lt_of_le_of_lt (Nat.mul_div_le _ _) hj
    simp only [hq, hmem, and_self, if_true]
  · simp only [hq, false_and, if_false]
    exact Array.getElem?_len_le C (by omega)

theorem rowUpdate_zero (CB : Mem R) (r c : Nat) (a : M256d R) :
    rowUpdate CB r c a (mm256_broadcast_pd 0) = CB := by
  funext q
  have h0 : (0 : Cplx R).re = 0 := rfl
  have h1 : (0 : Cplx R).im = 0 := rfl
  simp only [rowUpdate, mm256_storeu_pd, mm256_add_pd, mm256_loadu_pd, mm256_mul_pd,
    mm256_broadcast_pd, h0, h1, mul_zero, add_zero]
  by_cases hq : q = cbIdx r c
  · simp only [hq, if_true]
  · by_cases hq1 : q = cbIdx r c + 1
    · subst hq1
      simp only [hq, if_false, if_true]
    · simp only [hq, hq1, if_false]

theorem getD_mkArray_zero (m p : Nat) : (mkArray m (0 : Cplx R)).getD p 0 = 0 := by
  simp only [Array.getD_eq_get?, Array.getElem?_mkArray]
  split <;> rfl

theorem rowGroup_zero (A : Array (Cplx R)) (oob : Mem R) (m n ii jj k i : Nat) (CB : Mem R) :
    rowGroup A (mkArray m 0) oob n ii jj k i CB = CB := by
  unfold rowGroup
  apply forLoop_id
  intro j s
  simp only [getD_mkArray_zero, rowUpdate_zero, ite_self]

theorem accumulate_zero (A : Array (Cplx R)) (oob : Mem R) (stk : Cplx R) (m n ii jj : Nat) :
    accumulate A (mkArray m 0) oob stk n ii jj = initCB stk := by
  unfold accumulate
  apply forLoop_id
  intro kk s
  apply forLoop_id
  intro k s
  apply forLoop_id
  intro i s
  exact rowGroup_zero A oob m n ii jj k i s

theorem initCB_cbIdx (stk : Cplx R) {r c : Nat} (hr : r < BLOCK_SIZE) (hc : c < BLOCK_SIZE) :
    initCB stk (cbIdx r c) = 0 := by
  have h : cbIdx r c < BLOCK_SIZE * BLOCK_SIZE := by
    simp only [cbIdx, BLOCK_SIZE] at *
    omega
  simp only [initCB, h, if_true]

/-- For `n = 1` the kernel returns the lane-wise product of the two entries:
real part times real part, imaginary part times imaginary part. -/
theorem matrixMultiplyOptimized_one (a b c : Cplx R) (oob : Mem R) (stk : Cplx R) :
    matrixMultiplyOptimized #[a] #[b] #[c] 1 oob stk = #[laneMul a b] := by
  have h0 : (0 : Cplx R).re = 0 := rfl
  have h1 : (0 : Cplx R).im = 0 := rfl
  simp [matrixMultiplyOptimized, tileStep, writeBack, accumulate, rowGroup, rowUpdate,
    forLoop, forLoopAux, BLOCK_SIZE, UNROLL, cbIdx, mm256_storeu_pd, mm256_add_pd,
    mm256_loadu_pd, mm256_mul_pd, mm256_broadcast_pd, initCB, vecMem, laneMul, h0, h1,
    Array.setD]

end KernelProofs

/-! ## The effect of one update on the scratch block -/

section UpdateProofs

variable {R : Type} [CommRing R]

/-- Effect of one load / multiply-add / store sequence on the cell at flat
offset `p`: the lower half of the vector adds a lane-wise product to
`CB[r][c]`, the upper half adds one to the next cell. -/
theorem rowUpdate_load_at (CB mem : Mem R) (r c q : Nat) (x : Cplx R) (p : Nat) :
    rowUpdate CB r c (mm256_loadu_pd mem q) (mm256_broadcast_pd x) p
      = CB p + (if p = cbIdx r c then laneMul (mem q) x
          else if p = cbIdx r c + 1 then laneMul (mem (q + 1)) x else 0) := by
  simp only [rowUpdate, mm256_storeu_pd, mm256_add_pd, mm256_loadu_pd, mm256_mul_pd,
    mm256_broadcast_pd, laneMul]
  by_cases h1 : p = cbIdx r c
  · subst h1
    simp only [if_true]
    rfl
  · by_cases h2 : p = cbIdx r c + 1
    · subst h2
      simp only [h1, if_false, if_true]
      rfl
    · simp only [h1, h2, if_false, add_zero]

theorem guarded_at (g : Prop) [Decidable g] (CB mem : Mem R) (r c q : Nat) (x : Cplx R)
    (p : Nat) :
    (if g then rowUpdate CB r c (mm256_loadu_pd mem q) (mm256_broadcast_pd x) else CB) p
      = CB p + (if g then (if p = cbIdx r c then laneMul (mem q) x
          else if p = cbIdx r c + 1 then laneMul (mem (q + 1)) x else 0) else 0) := by
  split
  · exact rowUpdate_load_at CB mem r c q x p
  · rw [add_zero]

/-- The contribution of the update of row `r`, column `c` to the cell
`CB[r0][c0]`, for columns inside one row of the block. -/
theorem update_term (g : Prop) [Decidable g] (r r0 c c0 : Nat) (X Y : Nat → Cplx R)
    (hc : c + 1 < 64) (hc0 : c0 < 64) (hg : r0 = r → g) :
    (if g then (if cbIdx r0 c0 = cbIdx r c then X r
        else if cbIdx r0 c0 = cbIdx r c + 1 then Y r else 0) else 0)
      = if r0 = r then ((if c0 = c then X r0 else 0) + (if c0 = c + 1 then Y r0 else 0))
        else 0 := by
  simp only [cbIdx_eq_iff (show c < 64 by omega) hc0, cbIdx_eq_succ_iff hc hc0]
  by_cases hr : r0 = r
  · subst hr
    simp only [true_and, if_true, hg rfl]
    by_cases h1 : c0 = c
    · subst h1
      have h2 : ¬ c0 = c0 + 1 := by omega
      simp only [h2, if_true, if_false, add_zero]
    · simp only [h1, if_false, zero_add]
  · simp only [hr, false_and, if_false, ite_self]

theorem update_term_first (r r0 c c0 : Nat) (X Y : Nat → Cplx R)
    (hc : c + 1 < 64) (hc0 : c0 < 64) :
    (if cbIdx r0 c0 = cbIdx r c then X r
        else if cbIdx r0 c0 = cbIdx r c + 1 then Y r else 0)
      = if r0 = r then ((if c0 = c then X r0 else 0) + (if c0 = c + 1 then Y r0 else 0))
        else 0 := by
  have h := update_term True r r0 c c0 X Y hc hc0 (fun _ => trivial)
  simpa only [if_true] using h

end UpdateProofs

/-! ## The two lanes -/

section LaneProofs

variable {R : Type} [CommRing R]

theorem lane_add (l : Bool) (x y : Cplx R) : lane l (x + y) = lane l x + lane l y := by
  cases l <;> rfl

theorem lane_laneMul (l : Bool) (x y : Cplx R) : lane l (laneMul x y) = lane l x * lane l y := by
  cases l <;> rfl

theorem lane_zero (l : Bool) : lane l (0 : Cplx R) = 0 := by
  cases l <;> rfl

theorem rowUpdate_lane (l : Bool) (CB CB1 mem mem1 : Mem R) (r c q : Nat) (x x1 : Cplx R)
    (h : ∀ p, lane l (CB p) = lane l (CB1 p)) (hm : ∀ p, lane l (mem p) = lane l (mem1 p))
    (hx : lane l x = lane l x1) (p : Nat) :
    lane l (rowUpdate CB r c (mm256_loadu_pd mem q) (mm256_broadcast_pd x) p)
      = lane l (rowUpdate CB1 r c (mm256_loadu_pd mem1 q) (mm256_broadcast_pd x1) p) := by
  rw [rowUpdate_load_at, rowUpdate_load_at, lane_add, lane_add, h p]
  congr 1
  split
  · rw [lane_laneMul, lane_laneMul, hm, hx]
  · split
    · rw [lane_laneMul, lane_laneMul, hm, hx]
    · rfl

theorem guarded_lane (l : Bool) (g : Prop) [Decidable g] (CB CB1 mem mem1 : Mem R)
    (r c q : Nat) (x x1 : Cplx R)
    (h : ∀ p, lane l (CB p) = lane l (CB1 p)) (hm : ∀ p, lane l (mem p) = lane l (mem1 p))
    (hx : lane l x = lane l x1) (p : Nat) :
    lane l ((if g then rowUpdate CB r c (mm256_loadu_pd mem q) (mm256_broadcast_pd x)
        else CB) p)
      = lane l ((if g then rowUpdate CB1 r c (mm256_loadu_pd mem1 q) (mm256_broadcast_pd x1)
        else CB1) p) := by
  split
  · exact rowUpdate_lane l CB CB1 mem mem1 r c q x x1 h hm hx p
  · exact h p

theorem rowGroup_lane (l : Bool) (A A1 B B1 : Array (Cplx R)) (oob : Mem R)
    (n ii jj k i : Nat) (CB CB1 : Mem R)
    (hA : ∀ p, lane l (vecMem A oob p) = lane l (vecMem A1 oob p))
    (hB : ∀ p, lane l (B.getD p 0) = lane l (B1.getD p 0))
    (h : ∀ p, lane l (CB p) = lane l (CB1 p)) (p : Nat) :
    lane l (rowGroup A B oob n ii jj k i CB p) = lane l (rowGroup A1 B1 oob n ii jj k i CB1 p) := by
  unfold rowGroup
  refine forLoop_rel (fun s t : Mem R => ∀ p, lane l (s p) = lane l (t p)) _ _ _ _ _ ?_ CB CB1 h p
  intro j s t hst
  exact guarded_lane l _ _ _ _ _ _ _ _ _ _
    (guarded_lane l _ _ _ _ _ _ _ _ _ _
      (guarded_lane l _ _ _ _ _ _ _ _ _ _
        (rowUpdate_lane l s t _ _ _ _ _ _ _ hst hA (hB _)) hA (hB _)) hA (hB _)) hA (hB _)

theorem accumulate_lane (l : Bool) (A A1 B B1 : Array (Cplx R)) (oob : Mem R) (stk : Cplx R)
    (n ii jj : Nat)
    (hA : ∀ p, lane l (vecMem A oob p) = lane l (vecMem A1 oob p))
    (hB : ∀ p, lane l (B.getD p 0) = lane l (B1.getD p 0)) (p : Nat) :
    lane l (accumulate A B oob stk n ii jj p) = lane l (accumulate A1 B1 oob stk n ii jj p) := by
  unfold accumulate
  refine forLoop_rel (fun s t : Mem R => ∀ p, lane l (s p) = lane l (t p)) _ _ _ _ _ ?_ _ _
    (fun _ => rfl) p
  intro kk s t hst
  refine forLoop_rel (fun s t : Mem R => ∀ p, lane l (s p) = lane l (t p)) _ _ _ _ _ ?_ _ _ hst
  intro k s t hst
  refine forLoop_rel (fun s t : Mem R => ∀ p, lane l (s p) = lane l (t p)) _ _ _ _ _ ?_ _ _ hst
  intro i s t hst
  exact rowGroup_lane l A A1 B B1 oob n ii jj k i s t hA hB hst

theorem vecMem_lane (l : Bool) (A A1 : Array (Cplx R)) (oob : Mem R) (m : Nat)
    (hA : A.size = m) (hA1 : A1.size = m)
    (h : ∀ p, p < m → lane l (A.getD p 0) = lane l (A1.getD p 0)) (p : Nat) :
    lane l (vecMem A oob p) = lane l (vecMem A1 oob p) := by
  unfold vecMem
  by_cases hp : p < m
  · have e := h p hp
    simp only [Array.getD, hA, hA1, hp, dite_true] at e ⊢
    exact e
  · simp only [Array.getD, hA, hA1, hp, dite_false]

theorem getD_lane (l : Bool) (B B1 : Array (Cplx R)) (m : Nat)
    (hB : B.size = m) (hB1 : B1.size = m)
    (h : ∀ p, p < m → lane l (B.getD p 0) = lane l (B1.getD p 0)) (p : Nat) :
    lane l (B.getD p 0) = lane l (B1.getD p 0) := by
  by_cases hp : p < m
  · exact h p hp
  · simp only [Array.getD, hB, hB1, hp, dite_false]

/-- Lane-wise form of the independence of the two lanes: if two runs get
operands that agree in lane `l`, their outputs agree in lane `l`. -/
theorem matrixMultiplyOptimized_lane (l : Bool) (A A1 B B1 C C1 : Array (Cplx R)) (n : Nat)
    (oob : Mem R) (stk : Cplx R)
    (hA : A.size = n * n) (hA1 : A1.size = n * n) (hB : B.size = n * n)
    (hB1 : B1.size = n * n) (hC : C.size = n * n) (hC1 : C1.size = n * n)
    (hAl : ∀ p, p < n * n → lane l (A.getD p 0) = lane l (A1.getD p 0))
    (hBl : ∀ p, p < n * n → lane l (B.getD p 0) = lane l (B1.getD p 0)) (q : Nat) :
    lane l ((matrixMultiplyOptimized A B C n oob stk).getD q 0)
      = lane l ((matrixMultiplyOptimized A1 B1 C1 n oob stk).getD q 0) := by
  simp only [Array.getD_eq_get?, matrixMultiplyOptimized_getElem? _ _ _ n oob stk hC,
    matrixMultiplyOptimized_getElem? _ _ _ n oob stk hC1]
  split
  · simp only [Option.getD_some]
    exact accumulate_lane l A A1 B B1 oob stk n _ _ (vecMem_lane l A A1 oob _ hA hA1 hAl)
      (getD_lane l B B1 _ hB hB1 hBl) _
  · rfl

end LaneProofs

/-! ## Closed form for a single tile -/

section ClosedFormProofs

variable {R : Type} [CommRing R]

/-- Effect of one row group of the single tile of a matrix with `n <= 63` on
the scratch cell `CB[r0][c0]`: if row `r0` is in the group, the cell receives
the lane-wise product for column `c0` and, from the upper vector half, the
one for column `c0 - 1` with the next element of `A`. -/
theorem rowGroup_cell (A B : Array (Cplx R)) (oob : Mem R) (n k i r0 c0 : Nat)
    (hn : n ≤ 63) (hr0 : r0 < n) (hc0 : c0 < n) (CB : Mem R) :
    rowGroup A B oob n 0 0 k i CB (cbIdx r0 c0)
      = CB (cbIdx r0 c0) + (if i ≤ r0 ∧ r0 < i + 4 then
          laneMul (vecMem A oob (r0 * n + k)) (B.getD (k * n + c0) 0)
            + (if 1 ≤ c0 then
                laneMul (vecMem A oob (r0 * n + k + 1)) (B.getD (k * n + (c0 - 1)) 0)
              else 0)
        else 0) := by
  unfold rowGroup
  rw [forLoop_eq_foldl Nat.one_pos]
  refine (foldl_obs (fun s : Mem R => s (cbIdx r0 c0)) _
    (fun j => if i ≤ r0 ∧ r0 < i + 4 then
      ((if c0 = j then laneMul (vecMem A oob (r0 * n + k)) (B.getD (k * n + j) 0) else 0)
        + (if c0 = j + 1 then
            laneMul (vecMem A oob (r0 * n + k + 1)) (B.getD (k * n + j) 0) else 0))
      else 0) _ CB ?_).trans ?_
  · intro j hj s
    have hjn : j < n := Nat.lt_of_lt_of_le (mem_loopIdx_one.1 hj).2 (Nat.min_le_right _ _)
    have hmin : min (0 + BLOCK_SIZE) n = n := by
      simp only [BLOCK_SIZE]
      omega
    have hc : j + 1 < 64 := by omega
    have hc0' : c0 < 64 := by omega
    have t0 := update_term_first i r0 j c0
      (fun r => laneMul (vecMem A oob (r * n + k)) (B.getD (k * n + j) 0))
      (fun r => laneMul (vecMem A oob (r * n + k + 1)) (B.getD (k * n + j) 0)) hc hc0'
    have t1 := update_term (i + 1 < n) (i + 1) r0 j c0
      (fun r => laneMul (vecMem A oob (r * n + k)) (B.getD (k * n + j) 0))
      (fun r => laneMul (vecMem A oob (r * n + k + 1)) (B.getD (k * n + j) 0)) hc hc0'
      (fun h => by omega)
    have t2 := update_term (i + 2 < n) (i + 2) r0 j c0
      (fun r => laneMul (vecMem A oob (r * n + k)) (B.getD (k * n + j) 0))
      (fun r => laneMul (vecMem A oob (r * n + k + 1)) (B.getD (k * n + j) 0)) hc hc0'
      (fun h => by omega)
    have t3 := update_term (i + 3 < n) (i + 3) r0 j c0
      (fun r => laneMul (vecMem A oob (r * n + k)) (B.getD (k * n + j) 0))
      (fun r => laneMul (vecMem A oob (r * n + k + 1)) (B.getD (k * n + j) 0)) hc hc0'
      (fun h => by omega)
    simp only [guarded_at, rowUpdate_load_at, Nat.sub_zero, hmin]
    simp only [] at t0 t1 t2 t3
    rw [t0, t1, t2, t3, ← four_rows i r0]
    simp only [add_assoc]
  · have hmin : min (0 + BLOCK_SIZE) n = n := by
      simp only [BLOCK_SIZE]
      omega
    have hnd : (loopIdx 0 n 1).Nodup := loopIdx_nodup 0 n 1 Nat.one_pos
    simp only [hmin]
    congr 1
    by_cases hcond : i ≤ r0 ∧ r0 < i + 4
    · simp only [hcond, and_self, if_true]
      rw [List.sum_map_add,
        sum_ite_unique (fun j => c0 = j)
          (fun j => laneMul (vecMem A oob (r0 * n + k)) (B.getD (k * n + j) 0)) c0 _ hnd
          (mem_loopIdx_one.2 ⟨Nat.zero_le _, hc0⟩) (fun j _ => eq_comm)]
      congr 1
      by_cases h1 : 1 ≤ c0
      · rw [if_pos h1]
        exact sum_ite_unique (fun j => c0 = j + 1)
          (fun j => laneMul (vecMem A oob (r0 * n + k + 1)) (B.getD (k * n + j) 0)) (c0 - 1) _
          hnd (mem_loopIdx_one.2 ⟨Nat.zero_le _, by omega⟩) (fun j _ => by omega)
      · rw [if_neg h1]
        exact sum_ite_none (fun j => c0 = j + 1) _ _ (fun j _ => by omega)
    · simp only [hcond, if_false]
      exact sum_ite_none (fun _ => False) (fun _ => (0 : Cplx R)) _ (fun _ _ h => h)

/-- Effect of all row groups for one `k` on the scratch cell `CB[r0][c0]` of
the single tile of a matrix with `n <= 63`. -/
theorem rowGroups_cell (A B : Array (Cplx R)) (oob : Mem R) (n k r0 c0 : Nat)
    (hn : n ≤ 63) (hr0 : r0 < n) (hc0 : c0 < n) (CB : Mem R) :
    forLoop 0 (min (0 + BLOCK_SIZE) n) UNROLL (fun i CB => rowGroup A B oob n 0 0 k i CB) CB
        (cbIdx r0 c0)
      = CB (cbIdx r0 c0) + (laneMul (vecMem A oob (r0 * n + k)) (B.getD (k * n + c0) 0)
          + (if 1 ≤ c0 then
              laneMul (vecMem A oob (r0 * n + k + 1)) (B.getD (k * n + (c0 - 1)) 0)
            else 0)) := by
  have hu : 0 < UNROLL := by decide
  have hmin : min (0 + BLOCK_SIZE) n = n := by
    simp only [BLOCK_SIZE]
    omega
  rw [forLoop_eq_foldl hu, hmin]
  refine (foldl_obs (fun s : Mem R => s (cbIdx r0 c0)) _ _ _ CB
    (fun i _ s => rowGroup_cell A B oob n k i r0 c0 hn hr0 hc0 s)).trans ?_
  congr 1
  refine sum_ite_unique (fun i => i ≤ r0 ∧ r0 < i + 4) _ (UNROLL * (r0 / UNROLL)) _
    (loopIdx_nodup 0 n UNROLL hu) ?_ ?_
  · rw [mem_loopIdx hu]
    simp only [UNROLL]
    omega
  · intro i hi
    have h := (mem_loopIdx hu).1 hi
    simp only [UNROLL] at h ⊢
    omega

/-- The accumulated scratch cell `CB[r0][c0]` of the single tile of a matrix
with `1 <= n <= 63`, in closed form. -/
theorem accumulate_cell (A B : Array (Cplx R)) (oob : Mem R) (stk : Cplx R) (n r0 c0 : Nat)
    (hn1 : 1 ≤ n) (hn : n ≤ 63) (hr0 : r0 < n) (hc0 : c0 < n) :
    accumulate A B oob stk n 0 0 (cbIdx r0 c0)
      = ∑ k in Finset.range n,
          (laneMul (vecMem A oob (r0 * n + k)) (B.getD (k * n + c0) 0)
            + (if 1 ≤ c0 then
                laneMul (vecMem A oob (r0 * n + k + 1)) (B.getD (k * n + (c0 - 1)) 0)
              else 0)) := by
  have hpos : 0 < BLOCK_SIZE := by decide
  have hmin : min (0 + BLOCK_SIZE) n = n := by
    simp only [BLOCK_SIZE]
    omega
  have h0 : initCB stk (cbIdx r0 c0) = 0 :=
    initCB_cbIdx stk (by simp only [BLOCK_SIZE]; omega) (by simp only [BLOCK_SIZE]; omega)
  unfold accumulate
  rw [forLoop_eq_foldl hpos, loopIdx_block_single hn1 (by omega), List.foldl_cons,
    List.foldl_nil, forLoop_eq_foldl Nat.one_pos]
  refine (foldl_obs (fun s : Mem R => s (cbIdx r0 c0)) _ _ _ (initCB stk)
    (fun k _ s => rowGroups_cell A B oob n k r0 c0 hn hr0 hc0 s)).trans ?_
  rw [hmin, loopIdx_one, Nat.sub_zero, ← List.range_eq_range', sum_map_range]
  simp only [h0, zero_add]

theorem vecMem_of_lt (A : Array (Cplx R)) (oob : Mem R) {p : Nat} (h : p < A.size) :
    vecMem A oob p = A.getD p 0 := by
  simp only [vecMem, Array.getD, h, dite_true]

/-- Every entry of the output for `1 <= n <= 63`, in closed form, with the
reads of `A` through the memory that starts at `&A[0]`. -/
theorem matrixMultiplyOptimized_cell (A B C : Array (Cplx R)) (n : Nat) (oob : Mem R)
    (stk : Cplx R) (hn1 : 1 ≤ n) (hn : n ≤ 63) (hC : C.size = n * n) (i j : Nat)
    (hi : i < n) (hj : j < n) :
    (matrixMultiplyOptimized A B C n oob stk)[i * n + j]?
      = some (∑ k in Finset.range n,
          (laneMul (vecMem A oob (i * n + k)) (B.getD (k * n + j) 0)
            + (if 1 ≤ j then
                laneMul (vecMem A oob (i * n + k + 1)) (B.getD (k * n + (j - 1)) 0)
              else 0))) := by
  obtain ⟨e1, e2⟩ := (idx_eq_iff (i := i) hj).1 rfl
  have t1 : BLOCK_SIZE * (i / BLOCK_SIZE) = 0 := by
    simp only [BLOCK_SIZE]
    omega
  have t2 : BLOCK_SIZE * (j / BLOCK_SIZE) = 0 := by
    simp only [BLOCK_SIZE]
    omega
  have t3 : i % BLOCK_SIZE = i := by
    simp only [BLOCK_SIZE]
    omega
  have t4 : j % BLOCK_SIZE = j := by
    simp only [BLOCK_SIZE]
    omega
  rw [matrixMultiplyOptimized_getElem? A B C n oob stk hC, if_pos (idx_lt hi hj), e1, e2,
    t1, t2, t3, t4, accumulate_cell A B oob stk n i j hn1 hn hi hj]

end ClosedFormProofs

/-! ## The bounds-checked kernel -/

theorem loadChecked_none {R : Type} (A : Array (Cplx R)) (p : Nat) (h : A.size ≤ p + 1) :
    loadChecked A p = none := by
  unfold loadChecked
  rw [Array.getElem?_len_le A h]
  cases A[p]? <;> rfl

/-! ## Failure of the bounds-checked kernel -/

section CheckedProofs

variable {R : Type} [CommRing R]

/-- The row group that contains the last row fails at `k = n - 1`: the 256-bit
load of that row covers `A[n*n - 1]` and `A[n*n]`. -/
theorem rowGroupChecked_none (A B : Array (Cplx R)) (n ii jj i : Nat) (CB : Mem R)
    (hn : 0 < n) (hA : A.size = n * n) (h1 : i ≤ n - 1) (h2 : n - 1 < i + 4) :
    rowGroupChecked A B n ii jj (n - 1) i CB = none := by
  have hcase : i = n - 1 ∨ i + 1 = n - 1 ∨ i + 2 = n - 1 ∨ i + 3 = n - 1 := by omega
  have hload : loadChecked A ((n - 1) * n + (n - 1)) = none :=
    loadChecked_none A _ (by rw [last_idx n hn, hA])
  unfold rowGroupChecked
  rcases hcase with e | e | e | e
  · rw [e, hload]; rfl
  · rw [e, hload]
    cases loadChecked A (i * n + (n - 1)) <;> rfl
  · rw [e, hload]
    cases loadChecked A (i * n + (n - 1)) <;> cases loadChecked A ((i + 1) * n + (n - 1)) <;> rfl
  · rw [e, hload]
    cases loadChecked A (i * n + (n - 1)) <;> cases loadChecked A ((i + 1) * n + (n - 1)) <;>
      cases loadChecked A ((i + 2) * n + (n - 1)) <;> rfl

theorem accumulateChecked_none (A B : Array (Cplx R)) (stk : Cplx R) (n jj : Nat)
    (hn : 0 < n) (hA : A.size = n * n) :
    accumulateChecked A B stk n (BLOCK_SIZE * ((n - 1) / BLOCK_SIZE)) jj = none := by
  have hpos : 0 < BLOCK_SIZE := by decide
  have hu : 0 < UNROLL := by decide
  unfold accumulateChecked
  apply forLoopM_none hpos 0 n _ _ (BLOCK_SIZE * ((n - 1) / BLOCK_SIZE))
  · rw [mem_loopIdx hpos]
    simp only [BLOCK_SIZE]
    omega
  intro CB
  apply forLoopM_none Nat.one_pos _ _ _ _ (n - 1)
  · rw [mem_loopIdx_one]
    simp only [BLOCK_SIZE]
    omega
  intro CB
  apply forLoopM_none hu _ _ _ _
    (BLOCK_SIZE * ((n - 1) / BLOCK_SIZE)
      + UNROLL * ((n - 1 - BLOCK_SIZE * ((n - 1) / BLOCK_SIZE)) / UNROLL))
  · rw [mem_loopIdx hu]
    simp only [BLOCK_SIZE, UNROLL]
    omega
  intro CB
  apply rowGroupChecked_none A B n _ _ _ CB hn hA
  · simp only [BLOCK_SIZE, UNROLL]
    omega
  · simp only [BLOCK_SIZE, UNROLL]
    omega

/-- For `n = 1` and buffers of length `1` the bounds-checked kernel fails at its
first access: the 256-bit load at `&A[0]` covers `A[0]` and `A[1]`. -/
theorem matrixMultiplyOptimizedChecked_one (a b c stk : Cplx Int) :
    loadChecked #[a] (0 * 1 + 0) = none ∧
    matrixMultiplyOptimizedChecked #[a] #[b] #[c] 1 stk = none := by
  constructor
  · rfl
  · rfl

/-- With enough slack behind the `n * n` entries of `A` the checked kernel
succeeds, and it returns what the unchecked kernel returns when the slack is
the memory behind `A` (here `n = 2` and five slack elements). -/
theorem matrixMultiplyOptimizedChecked_padded :
    matrixMultiplyOptimizedChecked
        (#[⟨1, 1⟩, ⟨0, 0⟩, ⟨0, 0⟩, ⟨1, -1⟩, ⟨9, 9⟩, ⟨9, 9⟩, ⟨9, 9⟩, ⟨9, 9⟩, ⟨9, 9⟩] :
          Array (Cplx Int))
        #[⟨1, 0⟩, ⟨2, 1⟩, ⟨3, 0⟩, ⟨4, 0⟩] (mkArray 4 0) 2 0
      = some (matrixMultiplyOptimized (#[⟨1, 1⟩, ⟨0, 0⟩, ⟨0, 0⟩, ⟨1, -1⟩] : Array (Cplx Int))
          #[⟨1, 0⟩, ⟨2, 1⟩, ⟨3, 0⟩, ⟨4, 0⟩] (mkArray 4 0) 2 (fun _ => ⟨9, 9⟩) 0) := by
  decide

end CheckedProofs

/-! ## The kernel with checked scratch-block accesses -/

theorem writeBackInBlock_some {R : Type} (CB : Mem R) (n ii jj : Nat) (C : Array (Cplx R)) :
    writeBackInBlock CB n ii jj C = some (writeBack CB n ii jj C) := by
  unfold writeBackInBlock writeBack
  apply forLoopM_some Nat.one_pos
  intro i hi s
  apply forLoopM_some Nat.one_pos
  intro j hj s
  have h1 := (mem_loopIdx_one.1 hi).2
  have h2 := (mem_loopIdx_one.1 hj).2
  have h : cbIdx (i - ii) (j - jj) < BLOCK_SIZE * BLOCK_SIZE := by
    simp only [cbIdx, BLOCK_SIZE] at *
    omega
  simp only [h, if_true]

/-! ## Scratch-block accesses inside and outside the block -/

section InBlockProofs

variable {R : Type} [CommRing R]

/-- In a tile with `BLOCK_SIZE` rows and columns the row group of rows
`60 .. 63` fails at column `63`: the access at `&CB[63][63]` covers the flat
cells `4095` and `4096`. -/
theorem rowGroupInBlock_none (A B : Array (Cplx R)) (oob : Mem R) (n ii jj k : Nat)
    (CB : Mem R) (hi : ii + 64 ≤ n) (hj : jj + 64 ≤ n) :
    rowGroupInBlock A B oob n ii jj k (ii + 60) CB = none := by
  unfold rowGroupInBlock
  apply forLoopM_none Nat.one_pos _ _ _ _ (jj + 63)
  · rw [mem_loopIdx_one]
    simp only [BLOCK_SIZE]
    omega
  intro s
  have e1 : ii + 60 - ii = 60 := by omega
  have e2 : jj + 63 - jj = 63 := by omega
  have e3 : min (ii + 64) n = ii + 64 := by omega
  have g1 : ii + 60 + 1 < ii + 64 := by omega
  have g2 : ii + 60 + 2 < ii + 64 := by omega
  have g3 : ii + 60 + 3 < ii + 64 := by omega
  have c0 : 64 * 60 + 63 + 1 < 64 * 64 := by decide
  have c1 : 64 * (60 + 1) + 63 + 1 < 64 * 64 := by decide
  have c2 : 64 * (60 + 2) + 63 + 1 < 64 * 64 := by decide
  have c3 : ¬ 64 * (60 + 3) + 63 + 1 < 64 * 64 := by decide
  simp only [rowUpdateInBlock, cbIdx, BLOCK_SIZE, e1, e2, e3, g1, g2, g3, c0, c1, c2, c3,
    if_true, if_false, Option.some_bind]

theorem accumulateInBlock_none (A B : Array (Cplx R)) (oob : Mem R) (stk : Cplx R)
    (n ii jj : Nat) (hi : ii + 64 ≤ n) (hj : jj + 64 ≤ n) :
    accumulateInBlock A B oob stk n ii jj = none := by
  have hpos : 0 < BLOCK_SIZE := by decide
  have hu : 0 < UNROLL := by decide
  unfold accumulateInBlock
  apply forLoopM_none hpos 0 n _ _ 0
  · rw [mem_loopIdx hpos]
    simp only [BLOCK_SIZE]
    omega
  intro CB
  apply forLoopM_none Nat.one_pos _ _ _ _ 0
  · rw [mem_loopIdx_one]
    simp only [BLOCK_SIZE]
    omega
  intro CB
  apply forLoopM_none hu _ _ _ _ (ii + 60)
  · rw [mem_loopIdx hu]
    simp only [BLOCK_SIZE, UNROLL]
    omega
  intro CB
  exact rowGroupInBlock_none A B oob n ii jj 0 CB hi hj

theorem rowUpdateInBlock_some (CB : Mem R) (r c : Nat) (a b : M256d R) (hr : r < 63)
    (hc : c < 63) : rowUpdateInBlock CB r c a b = some (rowUpdate CB r c a b) := by
  have h : cbIdx r c + 1 < BLOCK_SIZE * BLOCK_SIZE := by
    simp only [cbIdx, BLOCK_SIZE]
    omega
  simp only [rowUpdateInBlock, h, if_true]

theorem guardedInBlock_some (g : Prop) [Decidable g] (CB : Mem R) (r c : Nat) (a b : M256d R)
    (hr : g → r < 63) (hc : c < 63) :
    (if g then rowUpdateInBlock CB r c a b else some CB)
      = some (if g then rowUpdate CB r c a b else CB) := by
  split
  · next hg => exact rowUpdateInBlock_some CB r c a b (hr hg) hc
  · rfl

theorem rowGroupInBlock_some (A B : Array (Cplx R)) (oob : Mem R) (n ii jj k i : Nat)
    (CB : Mem R) (hn : n ≤ 63) (hi : i < min (ii + BLOCK_SIZE) n) :
    rowGroupInBlock A B oob n ii jj k i CB = some (rowGroup A B oob n ii jj k i CB) := by
  have hin : i < n := Nat.lt_of_lt_of_le hi (Nat.min_le_right _ _)
  unfold rowGroupInBlock rowGroup
  apply forLoopM_some Nat.one_pos
  intro j hj s
  have hjn : j < n := Nat.lt_of_lt_of_le (mem_loopIdx_one.1 hj).2 (Nat.min_le_right _ _)
  have hc : j - jj < 63 := by omega
  have g1 : i + 1 < min (ii + BLOCK_SIZE) n → i - ii + 1 < 63 := fun h => by
    have := Nat.lt_of_lt_of_le h (Nat.min_le_right _ _)
    omega
  have g2 : i + 2 < min (ii + BLOCK_SIZE) n → i - ii + 2 < 63 := fun h => by
    have := Nat.lt_of_lt_of_le h (Nat.min_le_right _ _)
    omega
  have g3 : i + 3 < min (ii + BLOCK_SIZE) n → i - ii + 3 < 63 := fun h => by
    have := Nat.lt_of_lt_of_le h (Nat.min_le_right _ _)
    omega
  simp only [rowUpdateInBlock_some _ _ _ _ _ (show i - ii < 63 by omega) hc,
    guardedInBlock_some _ _ _ _ _ _ g1 hc, guardedInBlock_some _ _ _ _ _ _ g2 hc,
    guardedInBlock_some _ _ _ _ _ _ g3 hc, Option.some_bind]

theorem accumulateInBlock_some (A B : Array (Cplx R)) (oob : Mem R) (stk : Cplx R)
    (n ii jj : Nat) (hn : n ≤ 63) :
    accumulateInBlock A B oob stk n ii jj = some (accumulate A B oob stk n ii jj) := by
  have hpos : 0 < BLOCK_SIZE := by decide
  have hu : 0 < UNROLL := by decide
  unfold accumulateInBlock accumulate
  apply forLoopM_some hpos
  intro kk _ s
  apply forLoopM_some Nat.one_pos
  intro k _ s
  apply forLoopM_some hu
  intro i hi s
  exact rowGroupInBlock_some A B oob n ii jj k i s hn ((mem_loopIdx hu).1 hi).2.1

/-- For `n <= 63` every access to the scratch block stays inside the block: the
kernel with checked scratch-block accesses succeeds and returns the output of
`matrixMultiplyOptimized`. -/
theorem matrixMultiplyOptimizedInBlock_some (A B C : Array (Cplx R)) (n : Nat) (oob : Mem R)
    (stk : Cplx R) (hn : n ≤ 63) :
    matrixMultiplyOptimizedInBlock A B C n oob stk
      = some (matrixMultiplyOptimized A B C n oob stk) := by
  have hpos : 0 < BLOCK_SIZE := by decide
  unfold matrixMultiplyOptimizedInBlock matrixMultiplyOptimized
  apply forLoopM_some hpos
  intro ii _ s
  apply forLoopM_some hpos
  intro jj _ s
  rw [accumulateInBlock_some A B oob stk n ii jj hn, Option.some_bind, writeBackInBlock_some]
  rfl

end InBlockProofs

/-! ## The concrete scenario of the specification -/

/-- On the scenario `n = 2`, `A = [[1+1i, 0], [0, 1-1i]]`, `B = [[1, 2+1i], [3, 4]]`
the naive `matrixMultiply` returns the product `[[1+1i, 1+3i], [3-3i, 4-4i]]`,
for every output buffer of length `4`. -/
theorem scenario_matrixMultiply (C : Array (Cplx Int)) (hC : C.size = 2 * 2) :
    matrixMultiply (#[⟨1, 1⟩, ⟨0, 0⟩, ⟨0, 0⟩, ⟨1, -1⟩] : Array (Cplx Int))
        #[⟨1, 0⟩, ⟨2, 1⟩, ⟨3, 0⟩, ⟨4, 0⟩] C 2
      = #[⟨1, 1⟩, ⟨1, 3⟩, ⟨3, -3⟩, ⟨4, -4⟩] := by
  apply array_ext_getElem?
  intro q
  rw [matrixMultiply_getElem? _ _ C 2 hC q]
  by_cases hq : q < 2 * 2
  · rw [if_pos hq]
    have : q = 0 ∨ q = 1 ∨ q = 2 ∨ q = 3 := by omega
    rcases this with rfl | rfl | rfl | rfl <;> decide
  · rw [if_neg hq]
    exact (Array.getElem?_len_le _ (by simp; omega)).symm

/-- Instance of `scenario_matrixMultiply` for an output buffer that is not
zero. -/
theorem scenario_matrixMultiply_witness :
    (#[⟨5, 5⟩, ⟨6, 6⟩, ⟨7, 7⟩, ⟨8, 8⟩] : Array (Cplx Int)).size = 2 * 2 ∧
    matrixMultiply (#[⟨1, 1⟩, ⟨0, 0⟩, ⟨0, 0⟩, ⟨1, -1⟩] : Array (Cplx Int))
        #[⟨1, 0⟩, ⟨2, 1⟩, ⟨3, 0⟩, ⟨4, 0⟩] #[⟨5, 5⟩, ⟨6, 6⟩, ⟨7, 7⟩, ⟨8, 8⟩] 2
      = #[⟨1, 1⟩, ⟨1, 3⟩, ⟨3, -3⟩, ⟨4, -4⟩] :=
  ⟨by decide, scenario_matrixMultiply _ (by decide)⟩

/-- On the same scenario the kernel returns `1+0i` in entry `(0, 0)`, for every
output buffer of length `4` and every content of the memory behind the buffer
of `A` and behind the scratch block. -/
theorem scenario_entry_zero (C : Array (Cplx Int)) (oob : Mem Int) (stk : Cplx Int)
    (hC : C.size = 2 * 2) :
    (matrixMultiplyOptimized (#[⟨1, 1⟩, ⟨0, 0⟩, ⟨0, 0⟩, ⟨1, -1⟩] : Array (Cplx Int))
        #[⟨1, 0⟩, ⟨2, 1⟩, ⟨3, 0⟩, ⟨4, 0⟩] C 2 oob stk)[0 * 2 + 0]? = some ⟨1, 0⟩ := by
  rw [matrixMultiplyOptimized_cell _ _ C 2 oob stk (by decide) (by decide) hC 0 0 (by decide)
    (by decide)]
  simp only [Finset.sum_range_succ, Finset.sum_range_zero, vecMem]
  rfl

/-! ## The claims -/

section Claims

variable {R : Type} [CommRing R]

/-- C1 (fails): for `n = 1`, `A = [0+1i]`, `B = [0+1i]` the kernel returns
`C[0] = 0+1i` whatever lies behind the buffers, while the sum of complex
products `A[0] * B[0]` is `-1+0i`. -/
theorem matrixMultiplyOptimized_not_product (c : Cplx Int) (oob : Mem Int) (stk : Cplx Int) :
    (matrixMultiplyOptimized #[⟨0, 1⟩] #[⟨0, 1⟩] #[c] 1 oob stk)[0 * 1 + 0]? = some ⟨0, 1⟩ ∧
    (∑ k in Finset.range 1, (#[⟨0, 1⟩] : Array (Cplx Int)).getD (0 * 1 + k) 0
        * (#[⟨0, 1⟩] : Array (Cplx Int)).getD (k * 1 + 0) 0) = ⟨-1, 0⟩ := by
  rw [matrixMultiplyOptimized_one]
  exact ⟨by decide, by decide⟩

/-- C2 (fails): for `n = 1`, `A = [1+1i]`, `B = [1+1i]` the kernel returns
`[1+1i]` and the naive `matrixMultiply` returns `[0+2i]`. -/
theorem matrixMultiplyOptimized_ne_matrixMultiply (c : Cplx Int) (oob : Mem Int)
    (stk : Cplx Int) :
    matrixMultiplyOptimized #[⟨1, 1⟩] #[⟨1, 1⟩] #[c] 1 oob stk = #[⟨1, 1⟩] ∧
    matrixMultiply (#[⟨1, 1⟩] : Array (Cplx Int)) #[⟨1, 1⟩] #[c] 1 = #[⟨0, 2⟩] := by
  rw [matrixMultiplyOptimized_one]
  exact ⟨by decide, by simp [matrixMultiply, forLoop, forLoopAux, Array.setD]; decide⟩

/-- C3 (fails): on the scenario `n = 2`, `A = [[1+1i, 0], [0, 1-1i]]`,
`B = [[1, 2+1i], [3, 4]]` the kernel, run with zeros behind the buffer of `A`,
returns `[[1, 2+1i], [3, 5]]`, not `[[1+1i, 3+2i], [3-3i, 4-4i]]`. -/
theorem scenario_matrixMultiplyOptimized :
    matrixMultiplyOptimized (#[⟨1, 1⟩, ⟨0, 0⟩, ⟨0, 0⟩, ⟨1, -1⟩] : Array (Cplx Int))
        #[⟨1, 0⟩, ⟨2, 1⟩, ⟨3, 0⟩, ⟨4, 0⟩] (mkArray 4 0) 2 (fun _ => 0) 0
      = #[⟨1, 0⟩, ⟨2, 1⟩, ⟨3, 0⟩, ⟨5, 0⟩] ∧
    matrixMultiplyOptimized (#[⟨1, 1⟩, ⟨0, 0⟩, ⟨0, 0⟩, ⟨1, -1⟩] : Array (Cplx Int))
        #[⟨1, 0⟩, ⟨2, 1⟩, ⟨3, 0⟩, ⟨4, 0⟩] (mkArray 4 0) 2 (fun _ => 0) 0
      ≠ #[⟨1, 1⟩, ⟨3, 2⟩, ⟨3, -3⟩, ⟨4, -4⟩] := by
  have h : matrixMultiplyOptimized (#[⟨1, 1⟩, ⟨0, 0⟩, ⟨0, 0⟩, ⟨1, -1⟩] : Array (Cplx Int))
        #[⟨1, 0⟩, ⟨2, 1⟩, ⟨3, 0⟩, ⟨4, 0⟩] (mkArray 4 0) 2 (fun _ => 0) 0
      = #[⟨1, 0⟩, ⟨2, 1⟩, ⟨3, 0⟩, ⟨5, 0⟩] := by decide
  rw [h]
  exact ⟨rfl, by decide⟩

/-- C4 (fails): for every `n >= 1` and every `A` of length `n * n` the
bounds-checked kernel fails, that is, `matrixMultiplyOptimized` reads `A`
outside `[0, n * n)`: in the last tile row at `k = n - 1` the 256-bit load of
row `n - 1` covers `A[n*n - 1]` and `A[n*n]`. -/
theorem matrixMultiplyOptimizedChecked_none (A B C : Array (Cplx R)) (n : Nat) (stk : Cplx R)
    (hn : 0 < n) (hA : A.size = n * n) :
    matrixMultiplyOptimizedChecked A B C n stk = none := by
  have hpos : 0 < BLOCK_SIZE := by decide
  unfold matrixMultiplyOptimizedChecked
  apply forLoopM_none hpos 0 n _ _ (BLOCK_SIZE * ((n - 1) / BLOCK_SIZE))
  · rw [mem_loopIdx hpos]
    simp only [BLOCK_SIZE]
    omega
  intro C
  apply forLoopM_none hpos 0 n _ _ 0
  · rw [mem_loopIdx hpos]
    simp only [BLOCK_SIZE]
    omega
  intro C
  rw [accumulateChecked_none A B stk n 0 hn hA]
  rfl

/-- Instance of C4 at `n = BLOCK_SIZE + 1 = 65`. -/
theorem matrixMultiplyOptimizedChecked_none_witness :
    (0 < 65 ∧ (mkArray (65 * 65) (⟨1, 2⟩ : Cplx Int)).size = 65 * 65) ∧
    matrixMultiplyOptimizedChecked (mkArray (65 * 65) (⟨1, 2⟩ : Cplx Int))
      (mkArray (65 * 65) ⟨3, 4⟩) (mkArray (65 * 65) 0) 65 0 = none :=
  ⟨⟨by decide, Array.size_mkArray _ _⟩,
    matrixMultiplyOptimizedChecked_none _ _ _ 65 _ (by decide) (Array.size_mkArray _ _)⟩

/-- C5 (fails): for `n = 1`, `A = [0+1i]` and the identity `[1+0i]` as second
operand the kernel returns `[0+0i]`, not `A`. -/
theorem matrixMultiplyOptimized_identity (c : Cplx Int) (oob : Mem Int) (stk : Cplx Int) :
    matrixMultiplyOptimized #[⟨0, 1⟩] #[⟨1, 0⟩] #[c] 1 oob stk = #[⟨0, 0⟩] ∧
    (#[⟨0, 0⟩] : Array (Cplx Int)) ≠ #[⟨0, 1⟩] := by
  rw [matrixMultiplyOptimized_one]
  exact ⟨by decide, by decide⟩

/-- C6: with the all-zero `n × n` matrix as second operand, every one of the
`n * n` entries of the output of `matrixMultiplyOptimized` is `0 + 0i`, for
every first operand, every initial content of `C` and every content of the
memory behind `A` and behind the scratch block. -/
theorem matrixMultiplyOptimized_zero_right (A C : Array (Cplx R)) (n : Nat) (oob : Mem R)
    (stk : Cplx R) (hC : C.size = n * n) :
    matrixMultiplyOptimized A (mkArray (n * n) 0) C n oob stk = mkArray (n * n) 0 := by
  apply array_ext_getElem?
  intro q
  rw [matrixMultiplyOptimized_getElem? A _ C n oob stk hC q, accumulate_zero,
    Array.getElem?_mkArray]
  have hpos : 0 < BLOCK_SIZE := by decide
  rw [initCB_cbIdx stk (Nat.mod_lt _ hpos) (Nat.mod_lt _ hpos)]

/-- Witness of C6 at `n = 2` over the integers, with a non-zero first
operand and non-zero memory behind it. -/
theorem matrixMultiplyOptimized_zero_right_witness :
    (#[⟨5, 5⟩, ⟨5, 5⟩, ⟨5, 5⟩, ⟨5, 5⟩] : Array (Cplx Int)).size = 2 * 2 ∧
    matrixMultiplyOptimized (#[⟨1, 2⟩, ⟨3, 4⟩, ⟨5, 6⟩, ⟨7, 8⟩] : Array (Cplx Int))
      (mkArray (2 * 2) 0) #[⟨5, 5⟩, ⟨5, 5⟩, ⟨5, 5⟩, ⟨5, 5⟩] 2 (fun _ => ⟨9, 9⟩) ⟨3, 3⟩
      = mkArray (2 * 2) 0 :=
  ⟨by decide, matrixMultiplyOptimized_zero_right _ _ 2 _ _ (by decide)⟩

/-- C7 (fails): for `n = 2`, the all-zero first operand and `B` with all
entries `1+1i`, when the element behind the buffer of `A` reads as `1+1i` the
kernel returns `C[3] = 1+1i`. -/
theorem matrixMultiplyOptimized_zero_left :
    (matrixMultiplyOptimized (mkArray (2 * 2) (0 : Cplx Int)) (mkArray (2 * 2) ⟨1, 1⟩)
      (mkArray (2 * 2) 0) 2 (fun _ => ⟨1, 1⟩) 0)[1 * 2 + 1]? = some ⟨1, 1⟩ := by
  decide

/-- C8: after the naive `matrixMultiply`, for all `i, j < n` the entry
`C[i*n+j]` is the sum of `A[i*n+k] * B[k*n+j]` (complex product) accumulated
from `0` in increasing `k`, which is the sum over `k < n`. -/
theorem matrixMultiply_correct (A B C : Array (Cplx R)) (n : Nat)
    (hC : C.size = n * n) (i j : Nat) (hi : i < n) (hj : j < n) :
    (matrixMultiply A B C n)[i * n + j]?
      = some ((List.range n).foldl
          (fun s k => s + A.getD (i * n + k) 0 * B.getD (k * n + j) 0) 0) ∧
    (List.range n).foldl (fun s k => s + A.getD (i * n + k) 0 * B.getD (k * n + j) 0) 0
      = ∑ k in Finset.range n, A.getD (i * n + k) 0 * B.getD (k * n + j) 0 ∧
    ∀ x y : Cplx R, x * y = ⟨x.re * y.re - x.im * y.im, x.re * y.im + x.im * y.re⟩ := by
  have hq := (idx_eq_iff (i := i) hj).1 rfl
  refine ⟨?_, foldl_add_range _ n, fun _ _ => rfl⟩
  rw [matrixMultiply_getElem? A B C n hC, if_pos (idx_lt hi hj), hq.1, hq.2]

/-- Witness of C8: entry `(0, 1)` of the product of two `2 × 2` matrices over
the integers. -/
theorem matrixMultiply_correct_witness :
    ((mkArray 4 0 : Array (Cplx Int)).size = 2 * 2 ∧ 0 < 2 ∧ 1 < 2) ∧
    ((matrixMultiply (#[⟨1, 1⟩, ⟨0, 0⟩, ⟨0, 0⟩, ⟨1, -1⟩] : Array (Cplx Int))
        #[⟨1, 0⟩, ⟨2, 1⟩, ⟨3, 0⟩, ⟨4, 0⟩] (mkArray 4 0) 2)[0 * 2 + 1]?
      = some ((List.range 2).foldl
          (fun s k => s + (#[⟨1, 1⟩, ⟨0, 0⟩, ⟨0, 0⟩, ⟨1, -1⟩] : Array (Cplx Int)).getD (0 * 2 + k) 0
            * (#[⟨1, 0⟩, ⟨2, 1⟩, ⟨3, 0⟩, ⟨4, 0⟩] : Array (Cplx Int)).getD (k * 2 + 1) 0) 0) ∧
    (List.range 2).foldl
        (fun s k => s + (#[⟨1, 1⟩, ⟨0, 0⟩, ⟨0, 0⟩, ⟨1, -1⟩] : Array (Cplx Int)).getD (0 * 2 + k) 0
          * (#[⟨1, 0⟩, ⟨2, 1⟩, ⟨3, 0⟩, ⟨4, 0⟩] : Array (Cplx Int)).getD (k * 2 + 1) 0) 0
      = ∑ k in Finset.range 2,
          (#[⟨1, 1⟩, ⟨0, 0⟩, ⟨0, 0⟩, ⟨1, -1⟩] : Array (Cplx Int)).getD (0 * 2 + k) 0
            * (#[⟨1, 0⟩, ⟨2, 1⟩, ⟨3, 0⟩, ⟨4, 0⟩] : Array (Cplx Int)).getD (k * 2 + 1) 0 ∧
    ∀ x y : Cplx Int, x * y = ⟨x.re * y.re - x.im * y.im, x.re * y.im + x.im * y.re⟩) :=
  ⟨⟨by decide, by decide, by decide⟩,
    matrixMultiply_correct _ _ _ 2 (by decide) 0 1 (by decide) (by decide)⟩

/-- C9: the output of `matrixMultiplyOptimized` does not depend on the prior
content of `C`: two initial buffers of length `n * n` give the same final
buffer, and every index below `n * n` is among the indices that the write-back
loop of some tile of the run assigns. -/
theorem matrixMultiplyOptimized_overwrites (A B C0 C1 : Array (Cplx R)) (n : Nat) (oob : Mem R)
    (stk : Cplx R) (h0 : C0.size = n * n) (h1 : C1.size = n * n) :
    matrixMultiplyOptimized A B C0 n oob stk = matrixMultiplyOptimized A B C1 n oob stk ∧
    ∀ q, q < n * n → ∃ t ∈ tileOrigins n, q ∈ writeBackIdx n t.1 t.2 := by
  constructor
  · apply array_ext_getElem?
    intro q
    rw [matrixMultiplyOptimized_getElem? A B C0 n oob stk h0 q,
      matrixMultiplyOptimized_getElem? A B C1 n oob stk h1 q]
  · intro q hq
    have hi : q / n < n := div_lt_of_lt_sq hq
    have hj : q % n < n := Nat.mod_lt _ (Nat.lt_of_le_of_lt (Nat.zero_le _) hi)
    refine ⟨(BLOCK_SIZE * (q / n / BLOCK_SIZE), BLOCK_SIZE * (q % n / BLOCK_SIZE)), ?_, ?_⟩
    · rw [mem_tileOrigins]
      exact ⟨⟨Nat.lt_of_le_of_lt (Nat.mul_div_le _ _) hi, Nat.dvd_mul_right _ _⟩,
        ⟨Nat.lt_of_le_of_lt (Nat.mul_div_le _ _) hj, Nat.dvd_mul_right _ _⟩⟩
    · rw [mem_writeBackIdx]
      refine ⟨q / n, q % n, ?_, ?_, ?_⟩
      · simp only [BLOCK_SIZE]
        omega
      · simp only [BLOCK_SIZE]
        omega
      · rw [Nat.mul_comm]
        exact (Nat.div_add_mod q n).symm

/-- Witness of C9 at `n = 2` over the integers, with two initial buffers
that differ in every entry. -/
theorem matrixMultiplyOptimized_overwrites_witness :
    ((#[⟨5, 5⟩, ⟨6, 6⟩, ⟨7, 7⟩, ⟨8, 8⟩] : Array (Cplx Int)).size = 2 * 2 ∧
      (mkArray 4 0 : Array (Cplx Int)).size = 2 * 2) ∧
    (matrixMultiplyOptimized (#[⟨1, 1⟩, ⟨0, 0⟩, ⟨0, 0⟩, ⟨1, -1⟩] : Array (Cplx Int))
        #[⟨1, 0⟩, ⟨2, 1⟩, ⟨3, 0⟩, ⟨4, 0⟩] #[⟨5, 5⟩, ⟨6, 6⟩, ⟨7, 7⟩, ⟨8, 8⟩] 2
        (fun _ => ⟨9, 9⟩) ⟨3, 3⟩
      = matrixMultiplyOptimized #[⟨1, 1⟩, ⟨0, 0⟩, ⟨0, 0⟩, ⟨1, -1⟩]
        #[⟨1, 0⟩, ⟨2, 1⟩, ⟨3, 0⟩, ⟨4, 0⟩] (mkArray 4 0) 2 (fun _ => ⟨9, 9⟩) ⟨3, 3⟩ ∧
    ∀ q, q < 2 * 2 → ∃ t ∈ tileOrigins 2, q ∈ writeBackIdx 2 t.1 t.2) :=
  ⟨⟨by decide, by decide⟩,
    matrixMultiplyOptimized_overwrites _ _ _ _ 2 _ _ (by decide) (by decide)⟩

/-- C10: running the per-tile step (fresh zero scratch block, all `k`-chunks in
increasing order, write-back) sequentially over any permutation `L` of the
tile origins gives the buffer that `matrixMultiplyOptimized` returns. -/
theorem matrixMultiplyOptimized_tile_order (A B C : Array (Cplx R)) (n : Nat) (oob : Mem R)
    (stk : Cplx R) (hC : C.size = n * n) (L : List (Nat × Nat))
    (hL : L.Perm (tileOrigins n)) :
    L.foldl (fun C t => tileStep A B oob stk n t C) C
      = matrixMultiplyOptimized A B C n oob stk := by
  apply array_ext_getElem?
  intro q
  have hal : ∀ t ∈ L, BLOCK_SIZE ∣ t.1 ∧ BLOCK_SIZE ∣ t.2 := fun t ht =>
    ⟨(mem_tileOrigins.1 (hL.mem_iff.1 ht)).1.2, (mem_tileOrigins.1 (hL.mem_iff.1 ht)).2.2⟩
  have hal0 : ∀ t ∈ tileOrigins n, BLOCK_SIZE ∣ t.1 ∧ BLOCK_SIZE ∣ t.2 := fun t ht =>
    ⟨(mem_tileOrigins.1 ht).1.2, (mem_tileOrigins.1 ht).2.2⟩
  rw [matrixMultiplyOptimized_eq_foldl,
    (foldl_tileStep_getElem? A B oob stk n L C hal hC q).2,
    (foldl_tileStep_getElem? A B oob stk n (tileOrigins n) C hal0 hC q).2]
  simp only [hL.mem_iff]

/-- Witness of C10 at `n = 65` (four tiles), with the tiles taken in the
reverse of the loop order. -/
theorem matrixMultiplyOptimized_tile_order_witness :
    ((mkArray (65 * 65) 0 : Array (Cplx Int)).size = 65 * 65 ∧
      List.Perm [(64, 64), (64, 0), (0, 64), (0, 0)] (tileOrigins 65)) ∧
    [(64, 64), (64, 0), (0, 64), (0, 0)].foldl
        (fun C t => tileStep (mkArray (65 * 65) (⟨1, 2⟩ : Cplx Int)) (mkArray (65 * 65) ⟨3, 4⟩)
          (fun _ => ⟨9, 9⟩) ⟨3, 3⟩ 65 t C) (mkArray (65 * 65) 0)
      = matrixMultiplyOptimized (mkArray (65 * 65) ⟨1, 2⟩) (mkArray (65 * 65) ⟨3, 4⟩)
          (mkArray (65 * 65) 0) 65 (fun _ => ⟨9, 9⟩) ⟨3, 3⟩ :=
  ⟨⟨Array.size_mkArray _ _, by decide⟩,
    matrixMultiplyOptimized_tile_order _ _ _ 65 _ _ (Array.size_mkArray _ _) _ (by decide)⟩

/-- C11 (fails): for `n = 2` and `A`, `B` with all entries `0+1i`, the first
inner-loop update (`i = 0`, `k = 0`, `j = 0`, on the fresh scratch block) adds
`0+1i` to `CB[0][0]`, not the complex product `A[0] * B[0] = -1+0i`, and it also
changes the neighbouring cell `CB[0][1]` from `0` to `0+1i`. -/
theorem rowUpdate_not_complex :
    rowUpdate (initCB (0 : Cplx Int)) (0 - 0) (0 - 0)
        (mm256_loadu_pd (vecMem (mkArray (2 * 2) ⟨0, 1⟩) (fun _ => 0)) (0 * 2 + 0))
        (mm256_broadcast_pd ((mkArray (2 * 2) (⟨0, 1⟩ : Cplx Int)).getD (0 * 2 + 0) 0))
        (cbIdx 0 0) = ⟨0, 1⟩ ∧
    initCB (0 : Cplx Int) (cbIdx 0 0)
        + (mkArray (2 * 2) (⟨0, 1⟩ : Cplx Int)).getD (0 * 2 + 0) 0
          * (mkArray (2 * 2) (⟨0, 1⟩ : Cplx Int)).getD (0 * 2 + 0) 0 = ⟨-1, 0⟩ ∧
    rowUpdate (initCB (0 : Cplx Int)) (0 - 0) (0 - 0)
        (mm256_loadu_pd (vecMem (mkArray (2 * 2) ⟨0, 1⟩) (fun _ => 0)) (0 * 2 + 0))
        (mm256_broadcast_pd ((mkArray (2 * 2) (⟨0, 1⟩ : Cplx Int)).getD (0 * 2 + 0) 0))
        (cbIdx 0 1) = ⟨0, 1⟩ ∧
    initCB (0 : Cplx Int) (cbIdx 0 1) = 0 := by
  decide

/-- C13 (fails): for `n = 2` and `A`, `B` with all entries `0+1i`, after all
`k`-chunks the cell `CB[0][2]` of the only tile, which lies outside the valid
region of `2` columns, holds `0+2i`. -/
theorem accumulate_outside_nonzero :
    min (0 + BLOCK_SIZE) 2 - 0 ≤ 2 ∧
    accumulate (mkArray (2 * 2) (⟨0, 1⟩ : Cplx Int)) (mkArray (2 * 2) ⟨0, 1⟩) (fun _ => 0) 0 2
      0 0 (cbIdx 0 2) = ⟨0, 2⟩ := by
  decide

/-- C14 (fails): for every `n >= 64` the kernel with checked scratch-block
accesses fails, that is, `matrixMultiplyOptimized` accesses `CB` outside the
`BLOCK_SIZE * BLOCK_SIZE` cells of the block: in the first tile the 256-bit
access at `&CB[63][63]` covers the cell behind the block. -/
theorem matrixMultiplyOptimizedInBlock_none (A B C : Array (Cplx R)) (n : Nat) (oob : Mem R)
    (stk : Cplx R) (hn : 64 ≤ n) :
    matrixMultiplyOptimizedInBlock A B C n oob stk = none := by
  have hpos : 0 < BLOCK_SIZE := by decide
  unfold matrixMultiplyOptimizedInBlock
  apply forLoopM_none hpos 0 n _ _ 0
  · rw [mem_loopIdx hpos]
    simp only [BLOCK_SIZE]
    omega
  intro C
  apply forLoopM_none hpos 0 n _ _ 0
  · rw [mem_loopIdx hpos]
    simp only [BLOCK_SIZE]
    omega
  intro C
  rw [accumulateInBlock_none A B oob stk n 0 0 (by omega) (by omega)]
  rfl

/-- Instance of C14 at `n = BLOCK_SIZE = 64`. -/
theorem matrixMultiplyOptimizedInBlock_none_witness :
    64 ≤ 64 ∧
    matrixMultiplyOptimizedInBlock (mkArray (64 * 64) (⟨1, 2⟩ : Cplx Int))
      (mkArray (64 * 64) ⟨3, 4⟩) (mkArray (64 * 64) 0) 64 (fun _ => 0) 0 = none :=
  ⟨by decide, matrixMultiplyOptimizedInBlock_none _ _ _ 64 _ _ (by decide)⟩

/-- C15: the real and imaginary lanes never mix.  For two runs with the same
memory behind the buffer of `A`: if `A`, `A1` agree in the real parts of all
entries and `B`, `B1` do, the outputs agree in the real part of every entry;
and the same with imaginary parts throughout. -/
theorem matrixMultiplyOptimized_lanes (A A1 B B1 C C1 : Array (Cplx R)) (n : Nat)
    (oob : Mem R) (stk : Cplx R)
    (hA : A.size = n * n) (hA1 : A1.size = n * n) (hB : B.size = n * n)
    (hB1 : B1.size = n * n) (hC : C.size = n * n) (hC1 : C1.size = n * n) :
    ((∀ p, p < n * n → (A.getD p 0).re = (A1.getD p 0).re) →
      (∀ p, p < n * n → (B.getD p 0).re = (B1.getD p 0).re) →
      ∀ q, q < n * n →
        ((matrixMultiplyOptimized A B C n oob stk).getD q 0).re
          = ((matrixMultiplyOptimized A1 B1 C1 n oob stk).getD q 0).re) ∧
    ((∀ p, p < n * n → (A.getD p 0).im = (A1.getD p 0).im) →
      (∀ p, p < n * n → (B.getD p 0).im = (B1.getD p 0).im) →
      ∀ q, q < n * n →
        ((matrixMultiplyOptimized A B C n oob stk).getD q 0).im
          = ((matrixMultiplyOptimized A1 B1 C1 n oob stk).getD q 0).im) :=
  ⟨fun h1 h2 q _ =>
      matrixMultiplyOptimized_lane false A A1 B B1 C C1 n oob stk hA hA1 hB hB1 hC hC1 h1 h2 q,
    fun h1 h2 q _ =>
      matrixMultiplyOptimized_lane true A A1 B B1 C C1 n oob stk hA hA1 hB hB1 hC hC1 h1 h2 q⟩

/-- Witness of C15 at `n = 2` over the integers: the two runs get operands
with the same real parts and different imaginary parts. -/
theorem matrixMultiplyOptimized_lanes_witness :
    ((#[⟨1, 2⟩, ⟨3, 4⟩, ⟨5, 6⟩, ⟨7, 8⟩] : Array (Cplx Int)).size = 2 * 2 ∧
      (#[⟨1, 0⟩, ⟨3, -1⟩, ⟨5, 9⟩, ⟨7, 7⟩] : Array (Cplx Int)).size = 2 * 2 ∧
      (#[⟨1, 1⟩, ⟨2, 3⟩, ⟨4, 5⟩, ⟨6, 7⟩] : Array (Cplx Int)).size = 2 * 2 ∧
      (#[⟨1, 5⟩, ⟨2, 0⟩, ⟨4, 4⟩, ⟨6, -2⟩] : Array (Cplx Int)).size = 2 * 2 ∧
      (mkArray 4 0 : Array (Cplx Int)).size = 2 * 2 ∧
      (mkArray 4 ⟨1, 1⟩ : Array (Cplx Int)).size = 2 * 2) ∧
    ∀ q, q < 2 * 2 →
      ((matrixMultiplyOptimized (#[⟨1, 2⟩, ⟨3, 4⟩, ⟨5, 6⟩, ⟨7, 8⟩] : Array (Cplx Int))
          #[⟨1, 1⟩, ⟨2, 3⟩, ⟨4, 5⟩, ⟨6, 7⟩] (mkArray 4 0) 2 (fun _ => ⟨9, 9⟩) ⟨3, 3⟩).getD q 0).re
        = ((matrixMultiplyOptimized (#[⟨1, 0⟩, ⟨3, -1⟩, ⟨5, 9⟩, ⟨7, 7⟩] : Array (Cplx Int))
          #[⟨1, 5⟩, ⟨2, 0⟩, ⟨4, 4⟩, ⟨6, -2⟩] (mkArray 4 ⟨1, 1⟩) 2 (fun _ => ⟨9, 9⟩)
          ⟨3, 3⟩).getD q 0).re :=
  ⟨⟨by decide, by decide, by decide, by decide, by decide, by decide⟩,
    (matrixMultiplyOptimized_lanes _ _ _ _ _ _ 2 _ _ (by decide) (by decide) (by decide)
      (by decide) (by decide) (by decide)).1 (by decide) (by decide)⟩

/-- C16: closed form of the output of `matrixMultiplyOptimized` in the
single-tile case `1 <= n <= 63`.  With `laneMul p q = (Re p * Re q) + (Im p * Im q) i`,
for `i, j < n` with `i <= n - 2` or `j = 0` the entry `C[i*n+j]` is the sum over
`k < n` of `laneMul A[i*n+k] B[k*n+j]` plus, if `j >= 1`, the sum over `k < n`
of `laneMul A[i*n+k+1] B[k*n+(j-1)]`; for `n = 1`, `C[0] = laneMul A[0] B[0]`. -/
theorem matrixMultiplyOptimized_closed_form (A B C : Array (Cplx R)) (n : Nat) (oob : Mem R)
    (stk : Cplx R) (hn1 : 1 ≤ n) (hn : n ≤ 63) (hA : A.size = n * n) (hC : C.size = n * n) :
    (∀ i j, i < n → j < n → (i + 2 ≤ n ∨ j = 0) →
      (matrixMultiplyOptimized A B C n oob stk)[i * n + j]?
        = some ((∑ k in Finset.range n, laneMul (A.getD (i * n + k) 0) (B.getD (k * n + j) 0))
            + (if 1 ≤ j then
                ∑ k in Finset.range n,
                  laneMul (A.getD (i * n + k + 1) 0) (B.getD (k * n + (j - 1)) 0)
              else 0))) ∧
    (n = 1 →
      (matrixMultiplyOptimized A B C n oob stk)[0]?
        = some (laneMul (A.getD 0 0) (B.getD 0 0))) := by
  have main : ∀ i j, i < n → j < n → (i + 2 ≤ n ∨ j = 0) →
      (matrixMultiplyOptimized A B C n oob stk)[i * n + j]?
        = some ((∑ k in Finset.range n, laneMul (A.getD (i * n + k) 0) (B.getD (k * n + j) 0))
            + (if 1 ≤ j then
                ∑ k in Finset.range n,
                  laneMul (A.getD (i * n + k + 1) 0) (B.getD (k * n + (j - 1)) 0)
              else 0)) := by
    intro i j hi hj hij
    rw [matrixMultiplyOptimized_cell A B C n oob stk hn1 hn hC i j hi hj,
      Finset.sum_add_distrib]
    congr 2
    · apply Finset.sum_congr rfl
      intro k hk
      rw [vecMem_of_lt A oob (hA ▸ idx_lt hi (Finset.mem_range.1 hk))]
    · by_cases h1 : 1 ≤ j
      · simp only [h1, if_true]
        apply Finset.sum_congr rfl
        intro k hk
        have hi2 : i + 1 < n := by omega
        have hlt : i * n + k + 1 < n * n := by
          have h3 := idx_lt hi2 (Nat.lt_of_le_of_lt (Nat.zero_le _) hj)
          have h4 := Finset.mem_range.1 hk
          rw [Nat.add_mul] at h3
          omega
        rw [vecMem_of_lt A oob (hA ▸ hlt)]
      · simp only [h1, if_false, Finset.sum_const_zero]
  refine ⟨main, ?_⟩
  intro h1
  subst h1
  have h := main 0 0 (by omega) (by omega) (Or.inr rfl)
  simpa using h

/-- Witness of C16 at `n = 2` over the integers, with non-zero memory behind
the buffer of `A`. -/
theorem matrixMultiplyOptimized_closed_form_witness :
    ((1 ≤ 2 ∧ 2 ≤ 63) ∧ (#[⟨1, 2⟩, ⟨3, 4⟩, ⟨5, 6⟩, ⟨7, 8⟩] : Array (Cplx Int)).size = 2 * 2 ∧
      (mkArray 4 0 : Array (Cplx Int)).size = 2 * 2) ∧
    ((∀ i j, i < 2 → j < 2 → (i + 2 ≤ 2 ∨ j = 0) →
      (matrixMultiplyOptimized (#[⟨1, 2⟩, ⟨3, 4⟩, ⟨5, 6⟩, ⟨7, 8⟩] : Array (Cplx Int))
          #[⟨1, 1⟩, ⟨2, 3⟩, ⟨4, 5⟩, ⟨6, 7⟩] (mkArray 4 0) 2 (fun _ => ⟨9, 9⟩) ⟨3, 3⟩)[i * 2 + j]?
        = some ((∑ k in Finset.range 2,
              laneMul ((#[⟨1, 2⟩, ⟨3, 4⟩, ⟨5, 6⟩, ⟨7, 8⟩] : Array (Cplx Int)).getD (i * 2 + k) 0)
                ((#[⟨1, 1⟩, ⟨2, 3⟩, ⟨4, 5⟩, ⟨6, 7⟩] : Array (Cplx Int)).getD (k * 2 + j) 0))
            + (if 1 ≤ j then
                ∑ k in Finset.range 2,
                  laneMul
                    ((#[⟨1, 2⟩, ⟨3, 4⟩, ⟨5, 6⟩, ⟨7, 8⟩] : Array (Cplx Int)).getD (i * 2 + k + 1) 0)
                    ((#[⟨1, 1⟩, ⟨2, 3⟩, ⟨4, 5⟩, ⟨6, 7⟩] : Array (Cplx Int)).getD
                      (k * 2 + (j - 1)) 0)
              else 0))) ∧
    (2 = 1 →
      (matrixMultiplyOptimized (#[⟨1, 2⟩, ⟨3, 4⟩, ⟨5, 6⟩, ⟨7, 8⟩] : Array (Cplx Int))
          #[⟨1, 1⟩, ⟨2, 3⟩, ⟨4, 5⟩, ⟨6, 7⟩] (mkArray 4 0) 2 (fun _ => ⟨9, 9⟩) ⟨3, 3⟩)[0]?
        = some (laneMul ((#[⟨1, 2⟩, ⟨3, 4⟩, ⟨5, 6⟩, ⟨7, 8⟩] : Array (Cplx Int)).getD 0 0)
            ((#[⟨1, 1⟩, ⟨2, 3⟩, ⟨4, 5⟩, ⟨6, 7⟩] : Array (Cplx Int)).getD 0 0)))) :=
  ⟨⟨⟨by decide, by decide⟩, by decide, by decide⟩,
    matrixMultiplyOptimized_closed_form _ _ _ 2 _ _ (by decide) (by decide) (by decide)
      (by decide)⟩

end Claims

end Lab2SD
